import Mathlib

/-!
# Document storage layer of `rdb_protocol/btree.cc`

A shallow embedding of the point operations (`rdb_get`, `rdb_set`, `rdb_delete`,
`rdb_modify`) and of the range scan (`rdb_rget_slice` with its depth-first
traversal callback) of `src/rdb_protocol/btree.cc`, followed by theorems about
them.

Conventions of the embedding:

* A failed `guarantee`, `guarantee_err` or `unreachable` aborts the process; it is
  modelled by `Except.error` with a `fault`.
* A `query_language::runtime_exc_t` is an ordinary value; the `try`/`catch` blocks of the
  source become pattern matches on `Except runtime_exc_t _`.
* The B-tree, the block cache with its blobs, the serializer and the query evaluator are
  declared outside `btree.cc`.  The evaluator, the serializer and the missing constants are
  parameters; the index and the blob layer are modelled from the specification and marked so.
* Bytes are natural numbers; `size_t` arithmetic is reduced modulo `2 ^ 64`.
-/

namespace RdbBtree

/-! ## Documents -/

mutual
/-- Modelled from the spec: a Document, "an arbitrary-depth JSON-like value (null, boolean,
number, string, ordered list, unordered-key map)".  The type `scoped_cJSON_t` is declared
outside `btree.cc`.  Children form a chain of named items, the name being unused for the
elements of an array.  Numbers are integers. -/
inductive cJSON where
  | Null
  | False
  | True
  | Number (n : Int)
  | String (s : String)
  | Array (items : cJSON_items)
  | Object (fields : cJSON_items)
/-- Chain of the children of an array or of an object. -/
inductive cJSON_items where
  | nil
  | cons (name : String) (item : cJSON) (next : cJSON_items)
end

deriving instance DecidableEq for cJSON
deriving instance Repr for cJSON

/-- The document built by `cJSON_CreateNull()`. -/
def cJSON_CreateNull : cJSON := cJSON.Null

/-- Search a chain of children for the first item called `name`. -/
def cJSON_items.find (name : String) : cJSON_items → Option cJSON
  | .nil => none
  | .cons n item next => if n = name then some item else cJSON_items.find name next

/-- Modelled from the spec: `scoped_cJSON_t::GetObjectItem`, the field of an object with the
given name, absent (a null pointer) when the document has no such field.  Names are compared
as they are written. -/
def cJSON_GetObjectItem : cJSON → String → Option cJSON
  | .Object fields, name => fields.find name
  | _, _ => none

/-! ## Faults and domain errors -/

/-- The ways in which the code aborts instead of returning. -/
inductive fault where
  /-- `guarantee(...)` failed. -/
  | guarantee_failed
  /-- `guarantee_err(res == 0, "corruption detected...")` failed in `get_data`. -/
  | corruption
  /-- `unreachable(...)` was reached. -/
  | unreachable_reached
  /-- A null `boost::shared_ptr` was dereferenced. -/
  | null_dereference
  deriving DecidableEq, Repr

/-- Backtrace carried by the evaluator and by its exceptions. -/
abbrev backtrace_t := List String

/-- The exception `query_language::runtime_exc_t`: a message and a backtrace. -/
structure runtime_exc_t where
  message : String
  backtrace : backtrace_t
  deriving DecidableEq, Repr

/-! ## Keys and key ranges -/

/-- A store key is a byte string; `operator<` on keys is the lexicographic order. -/
abbrev store_key_t := List Nat

/-- Right bound of a key range: unbounded, or an exclusive key. -/
structure right_bound_t where
  unbounded : Bool
  key : store_key_t
  deriving DecidableEq, Repr

/-- The range `[left, right)` of keys, as read by `rdb_erase_range` (`keys.left`,
`keys.right.key`, `keys.right.unbounded`). -/
structure key_range_t where
  left : store_key_t
  right : right_bound_t
  deriving DecidableEq, Repr

/-- Membership of a key in a range. -/
def key_range_t.contains_key (range : key_range_t) (key : store_key_t) : Bool :=
  decide (range.left ≤ key) && (range.right.unbounded || decide (key < range.right.key))

/-! ## Value references and overflow storage -/

/-- Modelled from the spec: a Value Reference, "either the document bytes directly (if small
enough) or a reference descriptor pointing to externally-chained overflow storage", in the
representation `Inline(bytes) | Overflow(chain_handle)` of the design notes.  The chain lists
the indices of the overflow blocks in the arena, and `size` is the length of the value. -/
inductive rdb_value_t where
  | Inline (bytes : List Nat)
  | Overflow (size : Nat) (chain : List Nat)
  deriving DecidableEq, Repr

/-- Modelled from the spec: the block allocator seen through a transaction, "an arena of
overflow blocks addressed by index".  A slot is `none` once its block has been freed. -/
structure transaction_t where
  blocks : List (Option (List Nat))
  deriving DecidableEq, Repr

/-- Whether block `id` of the arena is allocated. -/
def transaction_t.allocated (txn : transaction_t) (id : Nat) : Bool :=
  match txn.blocks[id]? with
  | some (some _) => true
  | _ => false

/-- The parts of the system that `btree.cc` uses and that are declared elsewhere: the
constants of the blob layer, the chunk cap of a range read, the serializer of documents,
and two string conversions. -/
structure collaborators where
  /-- The constant `blob::btree_maxreflen`: the size of a reference, one byte of which is the
  length of an inline value. -/
  maxreflen : Nat
  /-- Number of value bytes held by one overflow block. -/
  block_size : Nat
  /-- The constant `rget_max_chunk_size`. -/
  rget_max_chunk_size : Nat
  /-- The bytes written by `wm << data; send_write_message(&stream, &wm)`. -/
  serialize : cJSON → List Nat
  /-- The function `deserialize(&read_stream, &data)`; `none` is a nonzero result. -/
  deserialize : List Nat → Option cJSON
  /-- The function `key_to_unescaped_str`. -/
  key_to_unescaped_str : store_key_t → String
  /-- The method `scoped_cJSON_t::Print`. -/
  Print : cJSON → String

/-- Cut `data` into `n` consecutive blocks of `bs` bytes (the last ones may be short). -/
def blob_chunks (bs : Nat) : Nat → List Nat → List (List Nat)
  | 0, _ => []
  | n + 1, data => data.take bs :: blob_chunks bs n (data.drop bs)

/-- Number of blocks of `bs` bytes needed for `size` bytes. -/
def blob_block_count (bs size : Nat) : Nat := (size + bs - 1) / bs

/-- Read the blocks of a chain; `none` if one of them is not allocated. -/
def blob_read_blocks (blocks : List (Option (List Nat))) : List Nat → Option (List (List Nat))
  | [] => some []
  | id :: ids =>
    match blocks[id]? with
    | some (some b) =>
      match blob_read_blocks blocks ids with
      | some bs => some (b :: bs)
      | none => none
    | _ => none

/-- Overwrite the blocks of a chain, in order, with the given contents. -/
def blob_write_blocks (blocks : List (Option (List Nat))) :
    List Nat → List (List Nat) → List (Option (List Nat))
  | id :: ids, c :: cs => blob_write_blocks (blocks.set id (some c)) ids cs
  | _, _ => blocks

/-- Free the blocks of a chain. -/
def blob_free_blocks (blocks : List (Option (List Nat))) : List Nat → List (Option (List Nat))
  | [] => blocks
  | id :: ids => blob_free_blocks (blocks.set id none) ids

/-- Modelled from the spec: `blob_t::expose_all`, the bytes of a value read "back" from "the
inline/overflow bytes"; `none` when a block of the chain is missing. -/
def blob_expose_all (txn : transaction_t) : rdb_value_t → Option (List Nat)
  | .Inline bytes => some bytes
  | .Overflow size chain =>
    match blob_read_blocks txn.blocks chain with
    | some bs => some (bs.flatten.take size)
    | none => none

/-- Modelled from the spec: `blob_t::clear`, which "frees all overflow storage reachable from
the reference" and leaves the reference zeroed. -/
def blob_clear (txn : transaction_t) : rdb_value_t → rdb_value_t × transaction_t
  | .Inline _ => (.Inline [], txn)
  | .Overflow _ chain => (.Inline [], { blocks := blob_free_blocks txn.blocks chain })

/-- Place `data` in a fresh reference: inline when it fits in `maxreflen - 1` bytes, in newly
allocated blocks at the end of the arena otherwise. -/
def blob_place (x : collaborators) (txn : transaction_t) (data : List Nat) :
    rdb_value_t × transaction_t :=
  if data.length + 1 ≤ x.maxreflen then (.Inline data, txn)
  else
    let n := blob_block_count x.block_size data.length
    (.Overflow data.length (List.range' txn.blocks.length n),
      { blocks := txn.blocks ++ (blob_chunks x.block_size n data).map some })

/-- Modelled from the spec: `blob_t::append_region`, which grows the value by `n` zero bytes,
"growing overflow storage as needed to hold the full byte length".  A value that has to move
releases the blocks it held. -/
def blob_append_region (x : collaborators) (txn : transaction_t) (ref : rdb_value_t) (n : Nat) :
    rdb_value_t × transaction_t :=
  let old := (blob_expose_all txn ref).getD []
  blob_place x (blob_clear txn ref).2 (old ++ List.replicate n 0)

/-- Modelled from the spec: `blob_t::write_from_string`, which overwrites the bytes of the
value from `offset` on with `data`, in place. -/
def blob_write_from_string (x : collaborators) (txn : transaction_t) (ref : rdb_value_t)
    (data : List Nat) (offset : Nat) : rdb_value_t × transaction_t :=
  let old := (blob_expose_all txn ref).getD []
  let bytes := old.take offset ++ data ++ old.drop (offset + data.length)
  match ref with
  | .Inline _ => (.Inline bytes, txn)
  | .Overflow size chain =>
    (.Overflow size chain,
      { blocks := blob_write_blocks txn.blocks chain
          (blob_chunks x.block_size chain.length bytes) })

/-! ## The index -/

/-- Modelled from the spec: the leaf level of the B-tree, "one reference slot per store key in
the index", held in ascending key order.  The recency timestamps are left out: no operation
of this development reads them. -/
abbrev superblock_t := List (store_key_t × rdb_value_t)

/-- State reached through the `txn` and `superblock` arguments of the operations. -/
structure store_t where
  superblock : superblock_t
  txn : transaction_t
  deriving DecidableEq, Repr

/-- The handle `keyvalue_location_t<rdb_value_t>`: the present value of the slot, if any. -/
structure keyvalue_location_t where
  value : Option rdb_value_t
  deriving DecidableEq, Repr

/-- Value stored under a key. -/
def find_slot : superblock_t → store_key_t → Option rdb_value_t
  | [], _ => none
  | (k, v) :: rest, key => if k = key then some v else find_slot rest key

/-- Put a value under a key, keeping the slots in key order. -/
def set_slot : superblock_t → store_key_t → rdb_value_t → superblock_t
  | [], key, value => [(key, value)]
  | (k, v) :: rest, key, value =>
    if key < k then (key, value) :: (k, v) :: rest
    else if key = k then (key, value) :: rest
    else (k, v) :: set_slot rest key value

/-- Remove the slot of a key. -/
def erase_slot (sb : superblock_t) (key : store_key_t) : superblock_t :=
  sb.filter (fun p => decide (p.1 ≠ key))

/-- Modelled from the spec: `find_keyvalue_location_for_read`; "`Location.value` is present
iff the key currently has a stored reference". -/
def find_keyvalue_location_for_read (st : store_t) (key : store_key_t) : keyvalue_location_t :=
  { value := find_slot st.superblock key }

/-- Modelled from the spec: `find_keyvalue_location_for_write`, as for a read. -/
def find_keyvalue_location_for_write (st : store_t) (key : store_key_t) : keyvalue_location_t :=
  { value := find_slot st.superblock key }

/-- Modelled from the spec: `apply_keyvalue_change`, which "writes the new reference (or
removes the slot if absent) back into the index". -/
def apply_keyvalue_change (st : store_t) (kv_location : keyvalue_location_t)
    (key : store_key_t) : store_t :=
  match kv_location.value with
  | some value => { st with superblock := set_slot st.superblock key value }
  | none => { st with superblock := erase_slot st.superblock key }

/-! ## Point operations -/

/-- The function `get_data`: expose the blob of a value and deserialize its bytes. -/
def get_data (x : collaborators) (value : rdb_value_t) (txn : transaction_t) :
    Except fault cJSON :=
  match blob_expose_all txn value with
  | none => .error .corruption
  | some bytes =>
    match x.deserialize bytes with
    | some data => .ok data
    | none => .error .corruption

/-- Response of a point read. -/
structure point_read_response_t where
  data : cJSON
  deriving DecidableEq, Repr

/-- The function `rdb_get`. -/
def rdb_get (x : collaborators) (store_key : store_key_t) (st : store_t) :
    Except fault point_read_response_t :=
  let kv_location := find_keyvalue_location_for_read st store_key
  match kv_location.value with
  | none => .ok { data := cJSON_CreateNull }
  | some value =>
    match get_data x value st.txn with
    | .ok data => .ok { data := data }
    | .error f => .error f

/-- The function `kv_location_delete`. -/
def kv_location_delete (kv_location : keyvalue_location_t) (key : store_key_t) (st : store_t) :
    Except fault store_t :=
  match kv_location.value with
  | none => .error .guarantee_failed
  | some value =>
    let txn := (blob_clear st.txn value).2
    .ok (apply_keyvalue_change { st with txn := txn } { value := none } key)

/-- The function `kv_location_set`.  The new value starts zeroed, the serialized document is
appended and written to its blob, and the new value takes the place of the one in the
location, which is dropped as it is.  Writing the document to the in-memory `vector_stream_t`
is taken to succeed, so that the `guarantee_err` on its result has no failing branch here. -/
def kv_location_set (x : collaborators) (_kv_location : keyvalue_location_t)
    (key : store_key_t) (data : cJSON) (st : store_t) : store_t :=
  let new_value : rdb_value_t := .Inline []
  let stream := x.serialize data
  let appended := blob_append_region x st.txn new_value stream.length
  let written := blob_write_from_string x appended.2 appended.1 stream 0
  apply_keyvalue_change { st with txn := written.2 } { value := some written.1 } key

/-- Outcomes of a point modification, `point_modify_ns::result_t`. -/
inductive point_modify_result_t where
  | MODIFIED
  | INSERTED
  | SKIPPED
  | DELETED
  | NOP
  | ERROR
  deriving DecidableEq, Repr

/-- What `query_language::calculate_modify` hands back: its result and the two values it
writes through `&new_row` and `&new_key`. -/
structure modify_outcome_t where
  res : point_modify_result_t
  new_row : Option cJSON
  new_key : String
  deriving DecidableEq, Repr

/-- The evaluator `query_language::calculate_modify`, applied to the current document and the
name of the primary key; the operation, mapping, environment, scopes and backtrace are fixed
in it.  It returns an outcome or throws a `runtime_exc_t`. -/
abbrev calculate_modify_t := cJSON → String → Except runtime_exc_t modify_outcome_t

/-- Response of a point modification. -/
structure point_modify_response_t where
  result : point_modify_result_t
  exc : Option runtime_exc_t
  deriving DecidableEq, Repr

/-- The start of the body of `rdb_modify`: the document `lhs` given to the evaluator, which is
the null document for a key without a value and the stored document otherwise, the latter
guaranteed to have the primary key. -/
def rdb_modify_lhs (x : collaborators) (primary_key : String)
    (kv_location : keyvalue_location_t) (txn : transaction_t) : Except fault cJSON :=
  match kv_location.value with
  | none => .ok cJSON_CreateNull
  | some value =>
    match get_data x value txn with
    | .error f => .error f
    | .ok lhs =>
      if (cJSON_GetObjectItem lhs primary_key).isSome then .ok lhs
      else .error .guarantee_failed

/-- The function `rdb_modify`.  The exception thrown for an insert under another key is
caught by the `catch` clause of the function like the ones the evaluator throws. -/
def rdb_modify (x : collaborators) (calculate_modify : calculate_modify_t)
    (primary_key : String) (key : store_key_t) (backtrace : backtrace_t)
    (st : store_t) (response : point_modify_response_t) :
    Except fault (point_modify_response_t × store_t) :=
  let kv_location := find_keyvalue_location_for_write st key
  match rdb_modify_lhs x primary_key kv_location st.txn with
  | .error f => .error f
  | .ok lhs =>
    match calculate_modify lhs primary_key with
    | .error e => .ok ({ result := .ERROR, exc := some e }, st)
    | .ok out =>
      let commit : Except fault (point_modify_response_t × store_t) :=
        match out.new_row with
        | none => .error .guarantee_failed
        | some new_row =>
          .ok ({ response with result := out.res }, kv_location_set x kv_location key new_row st)
      match out.res with
      | .INSERTED =>
        if out.new_key ≠ x.key_to_unescaped_str key then
          match out.new_row with
          | none => .error .null_dereference
          | some new_row =>
            let e : runtime_exc_t :=
              { message := "mutate can't change the primary key (" ++ primary_key ++
                  ") when doing an insert of " ++ x.Print new_row,
                backtrace := backtrace }
            .ok ({ result := .ERROR, exc := some e }, st)
        else commit
      | .MODIFIED => commit
      | .DELETED =>
        match kv_location_delete kv_location key st with
        | .error f => .error f
        | .ok st1 => .ok ({ response with result := out.res }, st1)
      | .SKIPPED => .ok ({ response with result := out.res }, st)
      | .NOP => .ok ({ response with result := out.res }, st)
      | .ERROR => .error .unreachable_reached

/-- Results of a point write. -/
inductive point_write_result_t where
  | STORED
  | DUPLICATE
  deriving DecidableEq, Repr

/-- Response of a point write. -/
structure point_write_response_t where
  result : point_write_result_t
  deriving DecidableEq, Repr

/-- The function `rdb_set`. -/
def rdb_set (x : collaborators) (key : store_key_t) (data : cJSON) (overwrite : Bool)
    (st : store_t) : point_write_response_t × store_t :=
  let kv_location := find_keyvalue_location_for_write st key
  let had_value := kv_location.value.isSome
  let st1 := if overwrite || !had_value then kv_location_set x kv_location key data st else st
  ({ result := if had_value then .DUPLICATE else .STORED }, st1)

/-- Results of a point delete. -/
inductive point_delete_result_t where
  | DELETED
  | MISSING
  deriving DecidableEq, Repr

/-- Response of a point delete. -/
structure point_delete_response_t where
  result : point_delete_result_t
  deriving DecidableEq, Repr

/-- The function `rdb_delete`. -/
def rdb_delete (key : store_key_t) (st : store_t) :
    Except fault (point_delete_response_t × store_t) :=
  let kv_location := find_keyvalue_location_for_write st key
  let key_exists := kv_location.value.isSome
  let st1 : Except fault store_t :=
    if key_exists then kv_location_delete kv_location key st else .ok st
  match st1 with
  | .error f => .error f
  | .ok st1 => .ok ({ result := if key_exists then .DELETED else .MISSING }, st1)

/-! ## Range scan -/

/-- The function `estimate_rget_response_size`. -/
def estimate_rget_response_size (_json : cJSON) : Nat := 250

/-- Number of values of a `size_t`. -/
def size_t_modulus : Nat := 2 ^ 64

/-- The stream of a range read, `rget_read_response_t::stream_t`. -/
abbrev stream_t := List (store_key_t × cJSON)

/-- Modelled from the spec: the result of a scan, "either a stream of (key, document) pairs or
a terminal's accumulated result", or the domain error that replaced it. -/
inductive rget_result_t where
  | stream (s : stream_t)
  | accumulated (a : cJSON)
  | exc (e : runtime_exc_t)
  deriving DecidableEq, Repr

/-- The response `rget_read_response_t`. -/
structure rget_read_response_t where
  result : rget_result_t
  last_considered_key : store_key_t
  truncated : Bool
  deriving DecidableEq, Repr

/-- One Transform Step with its scopes and backtrace, as applied by
`query_language::transform_visitor_t`: the documents it appends for one input document, or the
exception it throws. -/
abbrev transform_atom_t := cJSON → Except runtime_exc_t (List cJSON)

/-- The chain `rdb_protocol_details::transform_t`. -/
abbrev transform_t := List transform_atom_t

/-- A Terminal: `init` is `terminal_initializer_visitor_t` acting on `response->result`, and
`visit` is `terminal_visitor_t` folding one document into it.  Either may throw. -/
structure terminal_t where
  init : rget_result_t → Except runtime_exc_t rget_result_t
  visit : cJSON → rget_result_t → Except runtime_exc_t rget_result_t

/-- The inner loop over `data` of the transform loop: one step applied to every document, the
outputs collected in `tmp`. -/
def apply_transform_atom (f : transform_atom_t) : List cJSON → Except runtime_exc_t (List cJSON)
  | [] => .ok []
  | j :: js =>
    match f j with
    | .error e => .error e
    | .ok out =>
      match apply_transform_atom f js with
      | .error e => .error e
      | .ok rest => .ok (out ++ rest)

/-- The transform loop of `handle_pair`: the outputs of a step are the inputs of the next. -/
def apply_transforms : transform_t → List cJSON → Except runtime_exc_t (List cJSON)
  | [], data => .ok data
  | f :: fs, data =>
    match apply_transform_atom f data with
    | .error e => .error e
    | .ok tmp => apply_transforms fs tmp

/-- The loop of `handle_pair` in stream mode: push each document with its key and add its
estimated size to `cumulative_size`. -/
def push_stream (key : store_key_t) : List cJSON → stream_t × Nat → stream_t × Nat
  | [], acc => acc
  | d :: ds, (stream, cumulative_size) =>
    push_stream key ds
      (stream ++ [(key, d)], (cumulative_size + estimate_rget_response_size d) % size_t_modulus)

/-- The loop of `handle_pair` in terminal mode: fold each document into the result. -/
def apply_terminal (terminal : terminal_t) :
    List cJSON → rget_result_t → Except runtime_exc_t rget_result_t
  | [], result => .ok result
  | d :: ds, result =>
    match terminal.visit d result with
    | .error e => .error e
    | .ok result1 => apply_terminal terminal ds result1

/-- The mutable members of `rdb_rget_depth_first_traversal_callback_t`. -/
structure rdb_rget_depth_first_traversal_callback_t where
  bad_init : Bool
  response : rget_read_response_t
  cumulative_size : Nat
  deriving DecidableEq, Repr

/-- The constructor of `rdb_rget_depth_first_traversal_callback_t`. -/
def rdb_rget_depth_first_traversal_callback_t.create (terminal : Option terminal_t)
    (range : key_range_t) (response : rget_read_response_t) :
    rdb_rget_depth_first_traversal_callback_t :=
  let response := { response with last_considered_key := range.left }
  match terminal with
  | none => { bad_init := false, response := response, cumulative_size := 0 }
  | some t =>
    match t.init response.result with
    | .ok result =>
      { bad_init := false, response := { response with result := result }, cumulative_size := 0 }
    | .error e =>
      { bad_init := true, response := { response with result := .exc e }, cumulative_size := 0 }

/-- The method `handle_pair`: the pair `(continue, callback)` it leaves, or a fault. -/
def handle_pair (x : collaborators) (txn : transaction_t) (transform : transform_t)
    (terminal : Option terminal_t) (cb : rdb_rget_depth_first_traversal_callback_t)
    (key : store_key_t) (value : rdb_value_t) :
    Except fault (Bool × rdb_rget_depth_first_traversal_callback_t) :=
  if cb.bad_init then .ok (false, cb)
  else
    let response :=
      if cb.response.last_considered_key < key then
        { cb.response with last_considered_key := key }
      else cb.response
    match get_data x value txn with
    | .error f => .error f
    | .ok json =>
      match apply_transforms transform [json] with
      | .error e => .ok (false, { cb with response := { response with result := .exc e } })
      | .ok data =>
        match terminal with
        | none =>
          match response.result with
          | .stream stream =>
            let pushed := push_stream key data (stream, cb.cumulative_size)
            .ok (decide (pushed.2 < x.rget_max_chunk_size),
              { cb with response := { response with result := .stream pushed.1 },
                        cumulative_size := pushed.2 })
          | _ => .error .guarantee_failed
        | some t =>
          match apply_terminal t data response.result with
          | .error e => .ok (false, { cb with response := { response with result := .exc e } })
          | .ok result => .ok (true, { cb with response := { response with result := result } })

/-- The pairs of the index whose key lies in the range, in the order of the index. -/
def range_pairs (sb : superblock_t) (range : key_range_t) : List (store_key_t × rdb_value_t) :=
  sb.filter (fun p => range.contains_key p.1)

/-- The loop of the traversal over the pairs still to visit: it stops as soon as the callback
returns `false`. -/
def traverse_pairs (x : collaborators) (txn : transaction_t) (transform : transform_t)
    (terminal : Option terminal_t) :
    List (store_key_t × rdb_value_t) → rdb_rget_depth_first_traversal_callback_t →
      Except fault rdb_rget_depth_first_traversal_callback_t
  | [], cb => .ok cb
  | (key, value) :: rest, cb =>
    match handle_pair x txn transform terminal cb key value with
    | .error f => .error f
    | .ok (true, cb1) => traverse_pairs x txn transform terminal rest cb1
    | .ok (false, cb1) => .ok cb1

/-- Modelled from the spec: `btree_depth_first_traversal`, "a depth-first, key-ascending
traversal of the index restricted to a given range, invoking a callback per (key, reference)
pair", which the callback stops by returning `false`. -/
def btree_depth_first_traversal (x : collaborators) (st : store_t) (range : key_range_t)
    (transform : transform_t) (terminal : Option terminal_t)
    (callback : rdb_rget_depth_first_traversal_callback_t) :
    Except fault rdb_rget_depth_first_traversal_callback_t :=
  traverse_pairs x st.txn transform terminal (range_pairs st.superblock range) callback

/-- The function `rdb_rget_slice`. -/
def rdb_rget_slice (x : collaborators) (st : store_t) (range : key_range_t)
    (transform : transform_t) (terminal : Option terminal_t) (response : rget_read_response_t) :
    Except fault rget_read_response_t :=
  let callback := rdb_rget_depth_first_traversal_callback_t.create terminal range response
  match btree_depth_first_traversal x st range transform terminal callback with
  | .error f => .error f
  | .ok callback =>
    if callback.cumulative_size ≥ x.rget_max_chunk_size then
      .ok { callback.response with truncated := true }
    else
      .ok { callback.response with truncated := false }

/-- A response as its default constructor leaves it: an empty stream. -/
def rget_read_response_t.fresh : rget_read_response_t :=
  { result := .stream [], last_considered_key := [], truncated := false }

/-- Modelled from the spec: the key "just past" a key, the least key above it. -/
def key_just_past (key : store_key_t) : store_key_t := key ++ [0]

/-- Modelled from the spec: the caller of a truncated stream scan, "re-scanning from just past
that key and merging results", for at most `fuel` scans.  The result is the concatenation of
the streams returned so far, with `true` when the last scan was not truncated, so that no
further scan is due. -/
def rget_resume (x : collaborators) (st : store_t) :
    Nat → key_range_t → Except fault (stream_t × Bool)
  | 0, _ => .ok ([], false)
  | fuel + 1, range =>
    match rdb_rget_slice x st range [] none rget_read_response_t.fresh with
    | .error f => .error f
    | .ok response =>
      match response.result with
      | .stream s =>
        if response.truncated then
          match rget_resume x st fuel
              { left := key_just_past response.last_considered_key, right := range.right } with
          | .error f => .error f
          | .ok (rest, finished) => .ok (s ++ rest, finished)
        else .ok (s, true)
      | _ => .error .guarantee_failed

/-! ## Distribution sampling -/

/-- The response `distribution_read_response_t`: the map `key_counts` from keys to counts, a
`std::map<store_key_t, int64_t>`, held in ascending key order. -/
structure distribution_read_response_t where
  key_counts : List (store_key_t × Int)
  deriving DecidableEq, Repr

/-- The assignment `key_counts[key] = count` of a `std::map`: the entry of the key is replaced
or inserted at its place. -/
def key_counts_assign : List (store_key_t × Int) → store_key_t → Int → List (store_key_t × Int)
  | [], key, count => [(key, count)]
  | (k, c) :: rest, key, count =>
    if key < k then (key, count) :: (k, c) :: rest
    else if key = k then (key, count) :: rest
    else (k, c) :: key_counts_assign rest key count

/-- The count that a map has for a key. -/
def key_counts_find : List (store_key_t × Int) → store_key_t → Option Int
  | [], _ => none
  | (k, c) :: rest, key => if k = key then some c else key_counts_find rest key

/-- Conversion of an `int64_t` to `size_t`, as in the usual arithmetic conversions. -/
def to_uint64 (i : Int) : Nat := (i % (2 : Int) ^ 64).toNat

/-- Conversion of a `size_t` to `int64_t`. -/
def to_int64 (n : Nat) : Int :=
  if n % 2 ^ 64 < 2 ^ 63 then ((n % 2 ^ 64 : Nat) : Int) else ((n % 2 ^ 64 : Nat) : Int) - 2 ^ 64

/-- The value `keys_per_bucket` of `rdb_distribution_get`.  The quotient of the `int64_t` count
by the `size_t` number of splits is taken in `size_t`, and `std::max<int64_t>` compares it with 1
as an `int64_t`. -/
def keys_per_bucket (key_count_out : Int) (key_splits : List store_key_t) : Int :=
  if key_splits.length = 0 then key_count_out
  else max (to_int64 (to_uint64 key_count_out / key_splits.length)) 1

/-- The loop of `rdb_distribution_get` over the splits. -/
def assign_splits (count : Int) :
    List store_key_t → List (store_key_t × Int) → List (store_key_t × Int)
  | [], key_counts => key_counts
  | key :: rest, key_counts => assign_splits count rest (key_counts_assign key_counts key count)

/-- The function `rdb_distribution_get`, after `get_btree_key_distribution` has reported the
count `key_count_out` and the splits `key_splits`. -/
def rdb_distribution_get (key_count_out : Int) (key_splits : List store_key_t)
    (left_key : store_key_t) (response : distribution_read_response_t) :
    distribution_read_response_t :=
  let count := keys_per_bucket key_count_out key_splits
  { key_counts :=
      assign_splits count key_splits (key_counts_assign response.key_counts left_key count) }

/-! ## Reference functions for the statements on scans -/

/-- The documents that the value of a pair contributes to a scan: the decoded document pushed
through the transform chain; `none` when decoding aborts or the evaluation throws. -/
def emitted (x : collaborators) (txn : transaction_t) (transform : transform_t)
    (value : rdb_value_t) : Option (List cJSON) :=
  match get_data x value txn with
  | .error _ => none
  | .ok json =>
    match apply_transforms transform [json] with
    | .error _ => none
    | .ok data => some data

/-- The stream of a list of pairs: the documents of each pair in turn, tagged with its key. -/
def stream_of (x : collaborators) (txn : transaction_t) (transform : transform_t)
    (pairs : List (store_key_t × rdb_value_t)) : stream_t :=
  pairs.flatMap (fun p => ((emitted x txn transform p.2).getD []).map (fun d => (p.1, d)))

/-- The estimated size of a stream, 250 for each document. -/
def estimated_size (s : stream_t) : Nat := 250 * s.length

/-- The greatest of a starting key and the keys of a list of pairs, computed as `handle_pair`
updates `last_considered_key`. -/
def last_key (pairs : List (store_key_t × rdb_value_t)) (start : store_key_t) : store_key_t :=
  pairs.foldl (fun acc p => if acc < p.1 then p.1 else acc) start

/-- The callback of a scan in stream mode, from the values of its mutable members. -/
def stream_callback (s : stream_t) (last_considered_key : store_key_t) (truncated : Bool)
    (cumulative_size : Nat) : rdb_rget_depth_first_traversal_callback_t :=
  { bad_init := false
    response := { result := .stream s, last_considered_key := last_considered_key,
                  truncated := truncated }
    cumulative_size := cumulative_size }

/-- Modelled from the spec: the range of the keys `[a, z]`, both ends included; its right
bound is the key just past `z`. -/
def closed_range (a z : store_key_t) : key_range_t :=
  { left := a, right := { unbounded := false, key := key_just_past z } }

/-- The callback after `handle_pair` has been called on every pair of a list and has returned
`true` each time; `none` when a call returns `false` or aborts. -/
def traverse_all (x : collaborators) (txn : transaction_t) (transform : transform_t)
    (terminal : Option terminal_t) :
    List (store_key_t × rdb_value_t) → rdb_rget_depth_first_traversal_callback_t →
      Option rdb_rget_depth_first_traversal_callback_t
  | [], cb => some cb
  | (key, value) :: rest, cb =>
    match handle_pair x txn transform terminal cb key value with
    | .ok (true, cb1) => traverse_all x txn transform terminal rest cb1
    | _ => none

/-- A transform step or the terminal raises the domain error `e` on the value of a pair, for
a response whose result is `result`: the value decodes, and either the transform chain throws
`e`, or it passes and the terminal throws `e` while folding the documents. -/
def step_raises (x : collaborators) (txn : transaction_t) (transform : transform_t)
    (terminal : Option terminal_t) (result : rget_result_t) (value : rdb_value_t)
    (e : runtime_exc_t) : Prop :=
  ∃ json, get_data x value txn = .ok json ∧
    (apply_transforms transform [json] = .error e ∨
      ∃ data t, apply_transforms transform [json] = .ok data ∧ terminal = some t ∧
        apply_terminal t data result = .error e)

/-- Strictly ascending keys, the order in which the index holds its slots. -/
def ascending (sb : superblock_t) : Prop := sb.Pairwise (fun p q => p.1 < q.1)

instance (sb : superblock_t) : Decidable (ascending sb) := by
  unfold ascending
  infer_instance

/-- The collaborators with another chunk cap. -/
def with_chunk_cap (x : collaborators) (cap : Nat) : collaborators :=
  { x with rget_max_chunk_size := cap }

/-! ## A concrete serializer and concrete stores, for the examples -/

/-- Variable-length code of a number, seven bits to a byte, least significant first. -/
def sample_put_nat : Nat → Nat → List Nat
  | 0, n => [n % 128]
  | fuel + 1, n => if n < 128 then [n] else (128 + n % 128) :: sample_put_nat fuel (n / 128)

/-- Decoder of `sample_put_nat`. -/
def sample_get_nat : Nat → List Nat → Option (Nat × List Nat)
  | _, [] => none
  | 0, b :: bs => if b < 128 then some (b, bs) else none
  | fuel + 1, b :: bs =>
    if b < 128 then some (b, bs)
    else
      match sample_get_nat fuel bs with
      | some (n, rest) => some (b - 128 + 128 * n, rest)
      | none => none

/-- Code of a string: its length, then its characters. -/
def sample_put_string (s : String) : List Nat :=
  sample_put_nat s.length s.length ++ s.data.flatMap (fun c => sample_put_nat c.toNat c.toNat)

/-- Decoder of the characters of a string. -/
def sample_get_chars : Nat → List Nat → Option (List Char × List Nat)
  | 0, bs => some ([], bs)
  | n + 1, bs =>
    match sample_get_nat bs.length bs with
    | none => none
    | some (c, rest) =>
      match sample_get_chars n rest with
      | none => none
      | some (cs, rest1) => some (Char.ofNat c :: cs, rest1)

/-- Decoder of `sample_put_string`. -/
def sample_get_string (bs : List Nat) : Option (String × List Nat) :=
  match sample_get_nat bs.length bs with
  | none => none
  | some (n, rest) =>
    match sample_get_chars n rest with
    | none => none
    | some (cs, rest1) => some (String.mk cs, rest1)

mutual
/-- A serializer of documents: a tag byte, then the contents. -/
def sample_serialize : cJSON → List Nat
  | .Null => [0]
  | .False => [1]
  | .True => [2]
  | .Number n => 3 :: (if n < 0 then 1 else 0) :: sample_put_nat n.natAbs n.natAbs
  | .String s => 4 :: sample_put_string s
  | .Array items => 5 :: sample_serialize_items items
  | .Object fields => 6 :: sample_serialize_items fields
/-- Serializer of a chain of children. -/
def sample_serialize_items : cJSON_items → List Nat
  | .nil => [0]
  | .cons name item next =>
    1 :: (sample_put_string name ++ sample_serialize item ++ sample_serialize_items next)
end

mutual
/-- Parser of the bytes of `sample_serialize`, with the rest of the input. -/
def sample_parse : Nat → List Nat → Option (cJSON × List Nat)
  | 0, _ => none
  | _ + 1, [] => none
  | fuel + 1, tag :: bs =>
    if tag = 0 then some (.Null, bs)
    else if tag = 1 then some (.False, bs)
    else if tag = 2 then some (.True, bs)
    else if tag = 3 then
      match bs with
      | sign :: bs1 =>
        match sample_get_nat bs1.length bs1 with
        | some (n, rest) => some (.Number (if sign = 1 then - (n : Int) else (n : Int)), rest)
        | none => none
      | [] => none
    else if tag = 4 then
      match sample_get_string bs with
      | some (s, rest) => some (.String s, rest)
      | none => none
    else if tag = 5 then
      match sample_parse_items fuel bs with
      | some (items, rest) => some (.Array items, rest)
      | none => none
    else if tag = 6 then
      match sample_parse_items fuel bs with
      | some (items, rest) => some (.Object items, rest)
      | none => none
    else none
/-- Parser of a chain of children. -/
def sample_parse_items : Nat → List Nat → Option (cJSON_items × List Nat)
  | 0, _ => none
  | _ + 1, [] => none
  | fuel + 1, tag :: bs =>
    if tag = 0 then some (.nil, bs)
    else if tag = 1 then
      match sample_get_string bs with
      | none => none
      | some (name, rest) =>
        match sample_parse fuel rest with
        | none => none
        | some (item, rest1) =>
          match sample_parse_items fuel rest1 with
          | none => none
          | some (next, rest2) => some (.cons name item next, rest2)
    else none
end

/-- The deserializer for `sample_serialize`: the whole input must be one document. -/
def sample_deserialize (bs : List Nat) : Option cJSON :=
  match sample_parse (bs.length + 1) bs with
  | some (data, []) => some data
  | _ => none

/-- Collaborators with small constants: references of four bytes, blocks of two bytes, a
chunk cap of 500. -/
def sample_collaborators : collaborators :=
  { maxreflen := 4
    block_size := 2
    rget_max_chunk_size := 500
    serialize := sample_serialize
    deserialize := sample_deserialize
    key_to_unescaped_str := fun key => String.mk (key.map Char.ofNat)
    Print := fun data => String.mk ((sample_serialize data).map Char.ofNat) }

/-- The empty store. -/
def empty_store : store_t := { superblock := [], txn := { blocks := [] } }

/-- A document with primary key `"id"` equal to `"a"`. -/
def sample_doc_a : cJSON :=
  .Object (.cons "id" (.String "a") (.cons "n" (.Number 7) .nil))

/-- Another document with the same primary key. -/
def sample_doc_a2 : cJSON :=
  .Object (.cons "id" (.String "a") (.cons "n" (.Number (-300)) .nil))

/-- The store holding `sample_doc_a` under the key `"a"`. -/
def sample_store : store_t := (rdb_set sample_collaborators [97] sample_doc_a true empty_store).2

/-- An evaluator that inserts `sample_doc_a` under the primary key `"a"` when there is no
document, and otherwise replaces the document by `sample_doc_a2`. -/
def sample_upsert : calculate_modify_t := fun lhs _ =>
  if lhs = cJSON.Null then .ok { res := .INSERTED, new_row := some sample_doc_a, new_key := "a" }
  else .ok { res := .MODIFIED, new_row := some sample_doc_a2, new_key := "a" }

/-- An evaluator that returns the outcome `ERROR` instead of throwing. -/
def sample_returns_error : calculate_modify_t := fun _ _ =>
  .ok { res := .ERROR, new_row := none, new_key := "" }

/-- An evaluator that throws. -/
def sample_throws : calculate_modify_t := fun _ _ =>
  .error { message := "evaluation failed", backtrace := ["mapping"] }

/-- A response before the operation has filled it. -/
def sample_modify_response : point_modify_response_t := { result := .NOP, exc := none }

/-- The range of all keys. -/
def whole_range : key_range_t := { left := [], right := { unbounded := true, key := [] } }

/-- A store with three documents, under the keys `"a"`, `"b"` and `"c"`. -/
def sample_store3 : store_t :=
  (rdb_set sample_collaborators [98] sample_doc_a2 true
    (rdb_set sample_collaborators [99] (.String "c") true sample_store).2).2

/-- A transform step that emits its document twice. -/
def sample_twice : transform_atom_t := fun d => .ok [d, d]

/-- A transform step that throws on `sample_doc_a2` and passes any other document on. -/
def sample_rejects_a2 : transform_atom_t := fun d =>
  if d = sample_doc_a2 then .error { message := "rejected", backtrace := ["filter"] }
  else .ok [d]

/-- A terminal that counts the documents, starting from 0. -/
def sample_count : terminal_t :=
  { init := fun _ => .ok (.accumulated (.Number 0))
    visit := fun _ result =>
      match result with
      | .accumulated (.Number n) => .ok (.accumulated (.Number (n + 1)))
      | _ => .error { message := "not a count", backtrace := ["count"] } }

/-- A terminal that counts the documents and throws at the third. -/
def sample_count_to_two : terminal_t :=
  { init := fun _ => .ok (.accumulated (.Number 0))
    visit := fun _ result =>
      match result with
      | .accumulated (.Number n) =>
        if n < 2 then .ok (.accumulated (.Number (n + 1)))
        else .error { message := "too many", backtrace := ["count"] }
      | _ => .error { message := "not a count", backtrace := ["count"] } }

/-- A terminal whose initializer throws. -/
def sample_bad_init : terminal_t :=
  { init := fun _ => .error { message := "bad terminal", backtrace := ["init"] }
    visit := fun _ result => .ok result }

/-! ## Lemmas on the index -/

theorem find_slot_set_slot_same (sb : superblock_t) (key : store_key_t) (value : rdb_value_t) :
    find_slot (set_slot sb key value) key = some value := by
  induction sb with
  | nil => simp [set_slot, find_slot]
  | cons p rest ih =>
    obtain ⟨k, v⟩ := p
    unfold set_slot
    by_cases h1 : key < k
    · simp [h1, find_slot]
    · by_cases h2 : key = k
      · simp [h2, find_slot]
      · have h3 : ¬ k = key := fun h => h2 h.symm
        simp [h1, h2, h3, find_slot, ih]

theorem find_slot_set_slot_other (sb : superblock_t) (key other : store_key_t)
    (value : rdb_value_t) (h : other ≠ key) :
    find_slot (set_slot sb key value) other = find_slot sb other := by
  have h' : ¬ key = other := fun e => h e.symm
  induction sb with
  | nil => simp [set_slot, find_slot, h']
  | cons p rest ih =>
    obtain ⟨k, v⟩ := p
    unfold set_slot
    by_cases h1 : key < k
    · simp [h1, find_slot, h']
    · by_cases h2 : key = k
      · subst h2
        simp [find_slot, h']
      · simp only [h1, h2, if_false, find_slot, ih]

theorem find_slot_erase_slot_same (sb : superblock_t) (key : store_key_t) :
    find_slot (erase_slot sb key) key = none := by
  induction sb with
  | nil => simp [erase_slot, find_slot]
  | cons p rest ih =>
    obtain ⟨k, v⟩ := p
    by_cases h : k = key
    · simpa [erase_slot, h] using ih
    · simpa [erase_slot, h, find_slot] using ih

theorem find_slot_erase_slot_other (sb : superblock_t) (key other : store_key_t)
    (h : other ≠ key) :
    find_slot (erase_slot sb key) other = find_slot sb other := by
  induction sb with
  | nil => simp [erase_slot, find_slot]
  | cons p rest ih =>
    obtain ⟨k, v⟩ := p
    unfold erase_slot at ih ⊢
    by_cases h1 : k = key
    · have h2 : ¬ k = other := fun e => h (e.symm.trans h1)
      rw [List.filter_cons_of_neg (by simpa using h1)]
      simp only [find_slot, h2, if_false]
      exact ih
    · rw [List.filter_cons_of_pos (by simpa using h1)]
      by_cases h2 : k = other
      · simp only [find_slot, h2, if_true]
      · simp only [find_slot, h2, if_false]
        exact ih

theorem set_slot_keys (sb : superblock_t) (key : store_key_t) (value : rdb_value_t)
    (p : store_key_t × rdb_value_t) (hp : p ∈ set_slot sb key value) :
    p.1 = key ∨ p ∈ sb := by
  induction sb with
  | nil =>
    simp only [set_slot, List.mem_singleton] at hp
    left
    rw [hp]
  | cons q rest ih =>
    obtain ⟨k, v⟩ := q
    unfold set_slot at hp
    by_cases h1 : key < k
    · simp only [h1, if_true, List.mem_cons] at hp
      rcases hp with rfl | hp | hp
      · left; rfl
      · right; rw [hp]; exact List.mem_cons_self _ _
      · right; exact List.mem_cons_of_mem _ hp
    · by_cases h2 : key = k
      · subst h2
        simp only [lt_self_iff_false, if_false, if_true, List.mem_cons] at hp
        rcases hp with rfl | hp
        · left; rfl
        · right; exact List.mem_cons_of_mem _ hp
      · simp only [h1, h2, if_false, List.mem_cons] at hp
        rcases hp with rfl | hp
        · right; exact List.mem_cons_self _ _
        · rcases ih hp with h | h
          · left; exact h
          · right; exact List.mem_cons_of_mem _ h

/-- The order of the index is kept by `set_slot`. -/
theorem set_slot_ascending (sb : superblock_t) (key : store_key_t) (value : rdb_value_t)
    (h : ascending sb) : ascending (set_slot sb key value) := by
  unfold ascending at h ⊢
  induction sb with
  | nil => simp [set_slot]
  | cons q rest ih =>
    obtain ⟨k, v⟩ := q
    rw [List.pairwise_cons] at h
    unfold set_slot
    by_cases h1 : key < k
    · simp only [h1, if_true]
      refine List.Pairwise.cons ?_ (List.Pairwise.cons h.1 h.2)
      intro p hp
      rcases List.mem_cons.mp hp with rfl | hp
      · exact h1
      · exact lt_trans h1 (h.1 p hp)
    · by_cases h2 : key = k
      · subst h2
        simp only [lt_self_iff_false, if_false, if_true]
        exact List.Pairwise.cons h.1 h.2
      · simp only [h1, h2, if_false]
        refine List.Pairwise.cons ?_ (ih h.2)
        intro p hp
        rcases set_slot_keys rest key value p hp with hk | hm
        · rw [hk]
          exact lt_of_le_of_ne (not_lt.mp h1) (fun e => h2 e.symm)
        · exact h.1 p hm

/-- The order of the index is kept by `erase_slot`. -/
theorem erase_slot_ascending (sb : superblock_t) (key : store_key_t) (h : ascending sb) :
    ascending (erase_slot sb key) :=
  List.Pairwise.filter _ h

/-! ## Lemmas on the blob layer -/

theorem blob_write_blocks_length (blocks : List (Option (List Nat))) (ids : List Nat)
    (cs : List (List Nat)) : (blob_write_blocks blocks ids cs).length = blocks.length := by
  induction ids generalizing blocks cs with
  | nil => simp [blob_write_blocks]
  | cons id ids ih =>
    cases cs with
    | nil => simp [blob_write_blocks]
    | cons c cs => simp [blob_write_blocks, ih]

theorem blob_write_blocks_getElem_of_not_mem (blocks : List (Option (List Nat)))
    (ids : List Nat) (cs : List (List Nat)) (id : Nat) (h : id ∉ ids) :
    (blob_write_blocks blocks ids cs)[id]? = blocks[id]? := by
  induction ids generalizing blocks cs with
  | nil => simp [blob_write_blocks]
  | cons i ids ih =>
    cases cs with
    | nil => simp [blob_write_blocks]
    | cons c cs =>
      simp only [List.mem_cons, not_or] at h
      simp only [blob_write_blocks]
      rw [ih _ _ h.2, List.getElem?_set_ne (fun e => h.1 e.symm)]

theorem blob_read_write_blocks (blocks : List (Option (List Nat))) (ids : List Nat)
    (cs : List (List Nat)) (hnodup : ids.Nodup) (hbound : ∀ id ∈ ids, id < blocks.length)
    (hlen : cs.length = ids.length) :
    blob_read_blocks (blob_write_blocks blocks ids cs) ids = some cs := by
  induction ids generalizing blocks cs with
  | nil =>
    cases cs with
    | nil => simp [blob_read_blocks]
    | cons c cs => simp at hlen
  | cons i ids ih =>
    cases cs with
    | nil => simp at hlen
    | cons c cs =>
      simp only [List.nodup_cons] at hnodup
      simp only [List.length_cons, Nat.add_right_cancel_iff] at hlen
      have hi : i < blocks.length := hbound i (List.mem_cons_self _ _)
      have hrest : ∀ id ∈ ids, id < (blocks.set i (some c)).length := by
        intro id hid
        rw [List.length_set]
        exact hbound id (List.mem_cons_of_mem _ hid)
      have hread := ih (blocks.set i (some c)) cs hnodup.2 hrest hlen
      have hget : (blob_write_blocks (blocks.set i (some c)) ids cs)[i]? = some (some c) := by
        rw [blob_write_blocks_getElem_of_not_mem _ _ _ _ hnodup.1]
        simp [List.getElem?_set_self, hi]
      simp only [blob_write_blocks, blob_read_blocks, hget, hread]

theorem blob_chunks_length (bs n : Nat) (data : List Nat) :
    (blob_chunks bs n data).length = n := by
  induction n generalizing data with
  | zero => simp [blob_chunks]
  | succ n ih => simp [blob_chunks, ih]

theorem blob_chunks_flatten (bs n : Nat) (data : List Nat) (h : data.length ≤ n * bs) :
    (blob_chunks bs n data).flatten = data := by
  induction n generalizing data with
  | zero =>
    have : data = [] := by
      apply List.eq_nil_of_length_eq_zero
      omega
    simp [blob_chunks, this]
  | succ n ih =>
    have hdrop : (data.drop bs).length ≤ n * bs := by
      rw [List.length_drop]
      rw [Nat.succ_mul] at h
      omega
    simp only [blob_chunks, List.flatten_cons, ih _ hdrop, List.take_append_drop]

theorem blob_block_count_covers (bs size : Nat) (h : 0 < bs) :
    size ≤ blob_block_count bs size * bs := by
  unfold blob_block_count
  have h1 := Nat.div_add_mod (size + bs - 1) bs
  have h2 := Nat.mod_lt (size + bs - 1) h
  rw [Nat.mul_comm] at h1
  omega

theorem blob_expose_all_overflow_length (txn : transaction_t) (size : Nat) (chain : List Nat) :
    ((blob_expose_all txn (.Overflow size chain)).getD []).length ≤ size := by
  cases h : blob_read_blocks txn.blocks chain with
  | none => simp [blob_expose_all, h]
  | some bs =>
    simp only [blob_expose_all, h, Option.getD_some, List.length_take]
    omega

theorem blob_overwrite_all (old data : List Nat) (h : old.length ≤ data.length) :
    old.take 0 ++ data ++ old.drop (0 + data.length) = data := by
  have : old.drop (0 + data.length) = [] := by
    apply List.drop_eq_nil_of_le
    omega
  rw [this]
  simp

theorem blob_write_from_string_overflow_expose (x : collaborators) (txn : transaction_t)
    (chain : List Nat) (data : List Nat) (hnodup : chain.Nodup)
    (hbound : ∀ id ∈ chain, id < txn.blocks.length)
    (hcover : data.length ≤ chain.length * x.block_size) :
    blob_expose_all (blob_write_from_string x txn (.Overflow data.length chain) data 0).2
      (blob_write_from_string x txn (.Overflow data.length chain) data 0).1 = some data := by
  have hold := blob_expose_all_overflow_length txn data.length chain
  unfold blob_write_from_string
  simp only []
  rw [blob_overwrite_all _ _ hold]
  unfold blob_expose_all
  simp only []
  rw [blob_read_write_blocks _ _ _ hnodup hbound (blob_chunks_length _ _ _)]
  simp [blob_chunks_flatten _ _ _ hcover]

/-- Writing a string to a zeroed value and exposing it gives the string back. -/
theorem blob_write_expose (x : collaborators) (txn : transaction_t) (data : List Nat)
    (hbs : 0 < x.block_size) :
    blob_expose_all
        (blob_write_from_string x (blob_append_region x txn (.Inline []) data.length).2
          (blob_append_region x txn (.Inline []) data.length).1 data 0).2
        (blob_write_from_string x (blob_append_region x txn (.Inline []) data.length).2
          (blob_append_region x txn (.Inline []) data.length).1 data 0).1 = some data := by
  by_cases hfit : data.length + 1 ≤ x.maxreflen
  · simp [blob_append_region, blob_place, blob_clear, blob_expose_all, hfit,
      blob_write_from_string]
  · have happ : blob_append_region x txn (.Inline []) data.length =
        (.Overflow data.length
            (List.range' txn.blocks.length (blob_block_count x.block_size data.length)),
          { blocks := txn.blocks ++
              (blob_chunks x.block_size (blob_block_count x.block_size data.length)
                (List.replicate data.length 0)).map some }) := by
      simp [blob_append_region, blob_place, blob_clear, blob_expose_all, hfit]
    rw [happ]
    apply blob_write_from_string_overflow_expose
    · exact List.nodup_range' _ _
    · intro id hid
      simp only [List.mem_range', List.length_append, List.length_map, blob_chunks_length] at hid ⊢
      obtain ⟨i, hi, rfl⟩ := hid
      omega
    · rw [List.length_range']
      exact blob_block_count_covers _ _ hbs

/-! ## Point operations: set, delete, get -/

theorem kv_location_set_superblock (x : collaborators) (kv_location : keyvalue_location_t)
    (key : store_key_t) (data : cJSON) (st : store_t) :
    (kv_location_set x kv_location key data st).superblock =
      set_slot st.superblock key
        (blob_write_from_string x
          (blob_append_region x st.txn (.Inline []) (x.serialize data).length).2
          (blob_append_region x st.txn (.Inline []) (x.serialize data).length).1
          (x.serialize data) 0).1 := by
  simp [kv_location_set, apply_keyvalue_change]

theorem kv_location_set_txn (x : collaborators) (kv_location : keyvalue_location_t)
    (key : store_key_t) (data : cJSON) (st : store_t) :
    (kv_location_set x kv_location key data st).txn =
        (blob_write_from_string x
          (blob_append_region x st.txn (.Inline []) (x.serialize data).length).2
          (blob_append_region x st.txn (.Inline []) (x.serialize data).length).1
          (x.serialize data) 0).2 := by
  simp [kv_location_set, apply_keyvalue_change]

theorem kv_location_set_find_other (x : collaborators) (kv_location : keyvalue_location_t)
    (key other : store_key_t) (data : cJSON) (st : store_t) (h : other ≠ key) :
    find_slot (kv_location_set x kv_location key data st).superblock other =
      find_slot st.superblock other := by
  rw [kv_location_set_superblock, find_slot_set_slot_other _ _ _ _ h]

/-- The slot committed by `kv_location_set` exposes the serialized document. -/
theorem kv_location_set_expose (x : collaborators) (kv_location : keyvalue_location_t)
    (key : store_key_t) (data : cJSON) (st : store_t) (hbs : 0 < x.block_size) :
    ∃ value, find_slot (kv_location_set x kv_location key data st).superblock key = some value ∧
      blob_expose_all (kv_location_set x kv_location key data st).txn value =
        some (x.serialize data) := by
  refine ⟨(blob_write_from_string x
      (blob_append_region x st.txn (.Inline []) (x.serialize data).length).2
      (blob_append_region x st.txn (.Inline []) (x.serialize data).length).1
      (x.serialize data) 0).1, ?_, ?_⟩
  · rw [kv_location_set_superblock, find_slot_set_slot_same]
  · rw [kv_location_set_txn]
    exact blob_write_expose x st.txn (x.serialize data) hbs

/-- The point writes keep the index in ascending key order. -/
theorem rdb_set_ascending (x : collaborators) (key : store_key_t) (data : cJSON)
    (overwrite : Bool) (st : store_t) (h : ascending st.superblock) :
    ascending (rdb_set x key data overwrite st).2.superblock := by
  unfold rdb_set
  simp only []
  split
  · rw [kv_location_set_superblock]
    exact set_slot_ascending _ _ _ h
  · exact h

/-- C1: a set without overwrite on a key that holds a value reports `DUPLICATE` and returns
the store it was given, so that the key still reads as before. -/
theorem rdb_set_no_overwrite_is_duplicate (x : collaborators) (key : store_key_t)
    (data2 : cJSON) (st : store_t) (value : rdb_value_t)
    (h : find_slot st.superblock key = some value) :
    rdb_set x key data2 false st = ({ result := .DUPLICATE }, st) ∧
      rdb_get x key (rdb_set x key data2 false st).2 = rdb_get x key st := by
  have h1 : rdb_set x key data2 false st = ({ result := .DUPLICATE }, st) := by
    simp [rdb_set, find_keyvalue_location_for_write, h]
  exact ⟨h1, by rw [h1]⟩

theorem rdb_set_no_overwrite_is_duplicate_witness :
    (find_slot sample_store.superblock [97] = some (.Overflow 15 [0, 1, 2, 3, 4, 5, 6, 7]) ∧
      rdb_get sample_collaborators [97] sample_store = .ok { data := sample_doc_a }) ∧
    rdb_set sample_collaborators [97] sample_doc_a2 false sample_store =
      ({ result := .DUPLICATE }, sample_store) ∧
    rdb_get sample_collaborators [97]
        (rdb_set sample_collaborators [97] sample_doc_a2 false sample_store).2 =
      rdb_get sample_collaborators [97] sample_store :=
  ⟨⟨by decide, by rfl⟩,
    rdb_set_no_overwrite_is_duplicate sample_collaborators [97] sample_doc_a2 sample_store
      (.Overflow 15 [0, 1, 2, 3, 4, 5, 6, 7]) (by decide)⟩

/-- C2, as the claim states it, fails: a set with overwrite on a key that holds a value
replaces the document and reports `DUPLICATE`, not `STORED`. -/
theorem rdb_set_overwrite_reports_duplicate :
    (rdb_set sample_collaborators [97] sample_doc_a2 true sample_store).1.result = .DUPLICATE ∧
      (rdb_set sample_collaborators [97] sample_doc_a2 true sample_store).1.result ≠ .STORED ∧
      rdb_get sample_collaborators [97]
          (rdb_set sample_collaborators [97] sample_doc_a2 true sample_store).2 =
        .ok { data := sample_doc_a2 } :=
  ⟨by decide, by decide, by rfl⟩

/-- C2, amended: when the key has no value or `overwrite` is true, `rdb_set` commits the
encoded document under the key and leaves the other keys alone; the result is `STORED`
when the key had no value and `DUPLICATE` when it had one. -/
theorem rdb_set_commits (x : collaborators) (key : store_key_t) (data : cJSON)
    (overwrite : Bool) (st : store_t) (hbs : 0 < x.block_size)
    (h : overwrite = true ∨ find_slot st.superblock key = none) :
    (rdb_set x key data overwrite st).2 =
        kv_location_set x (find_keyvalue_location_for_write st key) key data st ∧
      (∃ value, find_slot (rdb_set x key data overwrite st).2.superblock key = some value ∧
        blob_expose_all (rdb_set x key data overwrite st).2.txn value =
          some (x.serialize data)) ∧
      (∀ other, other ≠ key →
        find_slot (rdb_set x key data overwrite st).2.superblock other =
          find_slot st.superblock other) ∧
      (rdb_set x key data overwrite st).1.result =
        (if (find_slot st.superblock key).isSome then .DUPLICATE else .STORED) := by
  have hst : (rdb_set x key data overwrite st).2 =
      kv_location_set x (find_keyvalue_location_for_write st key) key data st := by
    rcases h with h | h
    · simp [rdb_set, h]
    · simp [rdb_set, find_keyvalue_location_for_write, h]
  refine ⟨hst, ?_, ?_, ?_⟩
  · rw [hst]
    exact kv_location_set_expose x _ key data st hbs
  · intro other hne
    rw [hst]
    exact kv_location_set_find_other x _ key other data st hne
  · simp [rdb_set, find_keyvalue_location_for_write]

theorem rdb_set_commits_witness :
    (0 < sample_collaborators.block_size ∧
      (true = true ∨ find_slot sample_store.superblock [97] = none)) ∧
    (rdb_set sample_collaborators [97] sample_doc_a2 true sample_store).1.result =
      (if (find_slot sample_store.superblock [97]).isSome then .DUPLICATE else .STORED) :=
  ⟨⟨by decide, Or.inl rfl⟩,
    (rdb_set_commits sample_collaborators [97] sample_doc_a2 true sample_store (by decide)
      (Or.inl rfl)).2.2.2⟩

theorem blob_free_blocks_getElem_of_not_mem (blocks : List (Option (List Nat)))
    (ids : List Nat) (id : Nat) (h : id ∉ ids) :
    (blob_free_blocks blocks ids)[id]? = blocks[id]? := by
  induction ids generalizing blocks with
  | nil => simp [blob_free_blocks]
  | cons i ids ih =>
    simp only [List.mem_cons, not_or] at h
    simp only [blob_free_blocks]
    rw [ih _ h.2, List.getElem?_set_ne (fun e => h.1 e.symm)]

theorem blob_free_blocks_not_allocated (blocks : List (Option (List Nat)))
    (ids : List Nat) (id : Nat) (h : id ∈ ids) :
    transaction_t.allocated { blocks := blob_free_blocks blocks ids } id = false := by
  induction ids generalizing blocks with
  | nil => simp at h
  | cons i ids ih =>
    simp only [blob_free_blocks]
    by_cases hmem : id ∈ ids
    · exact ih _ hmem
    · have hid : id = i := by
        rcases List.mem_cons.mp h with h1 | h1
        · exact h1
        · exact absurd h1 hmem
      subst hid
      unfold transaction_t.allocated
      simp only []
      rw [blob_free_blocks_getElem_of_not_mem _ _ _ hmem]
      by_cases hlt : id < blocks.length
      · rw [List.getElem?_set_self hlt]
      · rw [List.getElem?_eq_none (by rw [List.length_set]; omega)]

/-- The sibling path: `kv_location_delete` leaves no block of the deleted value allocated. -/
theorem kv_location_delete_frees_overflow (key : store_key_t) (st st1 : store_t) (size : Nat)
    (chain : List Nat)
    (h : kv_location_delete { value := some (.Overflow size chain) } key st = .ok st1) :
    ∀ id ∈ chain, st1.txn.allocated id = false := by
  intro id hid
  simp only [kv_location_delete, blob_clear, apply_keyvalue_change, Except.ok.injEq] at h
  rw [← h]
  exact blob_free_blocks_not_allocated _ _ _ hid

theorem allocated_lt_length (txn : transaction_t) (id : Nat) (h : txn.allocated id = true) :
    id < txn.blocks.length := by
  unfold transaction_t.allocated at h
  by_contra hge
  rw [List.getElem?_eq_none (by omega)] at h
  simp at h

/-- The transaction that `kv_location_set` leaves has every block allocated that was
allocated before: the blob of the new value is written to fresh blocks only. -/
theorem kv_location_set_keeps_allocated (x : collaborators) (kv_location : keyvalue_location_t)
    (key : store_key_t) (data : cJSON) (st : store_t) (id : Nat)
    (h : st.txn.allocated id = true) :
    (kv_location_set x kv_location key data st).txn.allocated id = true := by
  rw [kv_location_set_txn]
  have hlt := allocated_lt_length st.txn id h
  by_cases hfit : (x.serialize data).length + 1 ≤ x.maxreflen
  · have happ : blob_append_region x st.txn (.Inline []) (x.serialize data).length =
        (.Inline (List.replicate (x.serialize data).length 0), st.txn) := by
      simp [blob_append_region, blob_place, blob_clear, blob_expose_all, hfit]
    rw [happ]
    exact h
  · have happ : blob_append_region x st.txn (.Inline []) (x.serialize data).length =
        (.Overflow (x.serialize data).length
            (List.range' st.txn.blocks.length
              (blob_block_count x.block_size (x.serialize data).length)),
          { blocks := st.txn.blocks ++
              (blob_chunks x.block_size (blob_block_count x.block_size (x.serialize data).length)
                (List.replicate (x.serialize data).length 0)).map some }) := by
      simp [blob_append_region, blob_place, blob_clear, blob_expose_all, hfit]
    rw [happ]
    have hnot : id ∉ List.range' st.txn.blocks.length
        (blob_block_count x.block_size (x.serialize data).length) := by
      intro hmem
      rw [List.mem_range'] at hmem
      obtain ⟨i, _, hi⟩ := hmem
      omega
    unfold transaction_t.allocated at h ⊢
    simp only [blob_write_from_string]
    rw [blob_write_blocks_getElem_of_not_mem _ _ _ _ hnot, List.getElem?_append_left hlt]
    exact h

/-- C3, refuted on the code: when `rdb_set` with overwrite replaces a value held in overflow
blocks, every block of the old value is still allocated afterwards; `kv_location_set` drops
the old reference without clearing its blob. -/
theorem rdb_set_overwrite_keeps_old_overflow (x : collaborators) (key : store_key_t)
    (data : cJSON) (st : store_t) (size : Nat) (chain : List Nat)
    (hslot : find_slot st.superblock key = some (.Overflow size chain))
    (halloc : ∀ id ∈ chain, st.txn.allocated id = true) :
    (rdb_set x key data true st).1.result = .DUPLICATE ∧
      ∀ id ∈ chain, (rdb_set x key data true st).2.txn.allocated id = true := by
  constructor
  · simp [rdb_set, find_keyvalue_location_for_write, hslot]
  · intro id hid
    have hst : (rdb_set x key data true st).2 =
        kv_location_set x (find_keyvalue_location_for_write st key) key data st := by
      simp [rdb_set]
    rw [hst]
    exact kv_location_set_keeps_allocated x _ key data st id (halloc id hid)

theorem rdb_set_overwrite_keeps_old_overflow_witness :
    (find_slot sample_store.superblock [97] = some (.Overflow 15 [0, 1, 2, 3, 4, 5, 6, 7]) ∧
      (∀ id ∈ [0, 1, 2, 3, 4, 5, 6, 7], sample_store.txn.allocated id = true)) ∧
    find_slot (rdb_set sample_collaborators [97] sample_doc_a2 true sample_store).2.superblock
        [97] = some (.Overflow 16 [8, 9, 10, 11, 12, 13, 14, 15]) ∧
    ∀ id ∈ [0, 1, 2, 3, 4, 5, 6, 7],
      (rdb_set sample_collaborators [97] sample_doc_a2 true
        sample_store).2.txn.allocated id = true :=
  ⟨⟨by decide, by decide⟩, by decide,
    (rdb_set_overwrite_keeps_old_overflow sample_collaborators [97] sample_doc_a2 sample_store
      15 [0, 1, 2, 3, 4, 5, 6, 7] (by decide) (by decide)).2⟩

/-- C4: `rdb_delete` on a key without a value reports `MISSING` and returns the store it was
given; on a key with a value it reports `DELETED`, frees the overflow of the value, removes
the slot of that key only, and `rdb_get` of the key then returns the null document. -/
theorem rdb_delete_missing_or_deleted (x : collaborators) (key : store_key_t) (st : store_t) :
    (find_slot st.superblock key = none →
      rdb_delete key st = .ok ({ result := .MISSING }, st)) ∧
    (∀ value, find_slot st.superblock key = some value →
      ∃ st1, rdb_delete key st = .ok ({ result := .DELETED }, st1) ∧
        st1.superblock = erase_slot st.superblock key ∧
        st1.txn = (blob_clear st.txn value).2 ∧
        find_slot st1.superblock key = none ∧
        (∀ other, other ≠ key → find_slot st1.superblock other = find_slot st.superblock other) ∧
        rdb_get x key st1 = .ok { data := cJSON_CreateNull }) := by
  constructor
  · intro hnone
    simp [rdb_delete, find_keyvalue_location_for_write, hnone]
  · intro value hsome
    refine ⟨{ superblock := erase_slot st.superblock key, txn := (blob_clear st.txn value).2 },
      ?_, rfl, rfl, ?_, ?_, ?_⟩
    · simp [rdb_delete, find_keyvalue_location_for_write, hsome, kv_location_delete,
        apply_keyvalue_change]
    · exact find_slot_erase_slot_same _ _
    · intro other hne
      exact find_slot_erase_slot_other _ _ _ hne
    · simp [rdb_get, find_keyvalue_location_for_read, find_slot_erase_slot_same]

theorem rdb_delete_missing_or_deleted_witness :
    (find_slot sample_store.superblock [98] = none ∧
      find_slot sample_store.superblock [97] = some (.Overflow 15 [0, 1, 2, 3, 4, 5, 6, 7])) ∧
    rdb_delete [98] sample_store = .ok ({ result := .MISSING }, sample_store) ∧
    ∃ st1, rdb_delete [97] sample_store = .ok ({ result := .DELETED }, st1) ∧
      st1.superblock = erase_slot sample_store.superblock [97] ∧
      st1.txn = (blob_clear sample_store.txn (.Overflow 15 [0, 1, 2, 3, 4, 5, 6, 7])).2 ∧
      find_slot st1.superblock [97] = none ∧
      (∀ other, other ≠ [97] →
        find_slot st1.superblock other = find_slot sample_store.superblock other) ∧
      rdb_get sample_collaborators [97] st1 = .ok { data := cJSON_CreateNull } :=
  ⟨⟨by decide, by decide⟩,
    (rdb_delete_missing_or_deleted sample_collaborators [98] sample_store).1 (by decide),
    (rdb_delete_missing_or_deleted sample_collaborators [97] sample_store).2
      (.Overflow 15 [0, 1, 2, 3, 4, 5, 6, 7]) (by decide)⟩

/-- C5: round trip.  For a document that the serializer reads back, the value that
`kv_location_set` commits decodes with `get_data` to the document, whether its bytes fit in
the reference or go to overflow blocks; `rdb_get` after `kv_location_set`, and after an
`rdb_set` that commits, returns the document. -/
theorem get_data_after_set_roundtrip (x : collaborators) (kv_location : keyvalue_location_t)
    (key : store_key_t) (data : cJSON) (overwrite : Bool) (st : store_t)
    (hbs : 0 < x.block_size) (hcodec : x.deserialize (x.serialize data) = some data)
    (hcommit : overwrite = true ∨ find_slot st.superblock key = none) :
    (∃ value, find_slot (kv_location_set x kv_location key data st).superblock key = some value ∧
      get_data x value (kv_location_set x kv_location key data st).txn = .ok data) ∧
    rdb_get x key (kv_location_set x kv_location key data st) = .ok { data := data } ∧
    rdb_get x key (rdb_set x key data overwrite st).2 = .ok { data := data } := by
  obtain ⟨value, hfind, hexpose⟩ := kv_location_set_expose x kv_location key data st hbs
  have hget : get_data x value (kv_location_set x kv_location key data st).txn = .ok data := by
    simp [get_data, hexpose, hcodec]
  have hrdb : ∀ kv, rdb_get x key (kv_location_set x kv key data st) = .ok { data := data } := by
    intro kv
    obtain ⟨v, hf, he⟩ := kv_location_set_expose x kv key data st hbs
    simp [rdb_get, find_keyvalue_location_for_read, hf, get_data, he, hcodec]
  refine ⟨⟨value, hfind, hget⟩, hrdb kv_location, ?_⟩
  have hst : (rdb_set x key data overwrite st).2 =
      kv_location_set x (find_keyvalue_location_for_write st key) key data st := by
    rcases hcommit with h | h
    · simp [rdb_set, h]
    · simp [rdb_set, find_keyvalue_location_for_write, h]
  rw [hst]
  exact hrdb _

theorem get_data_after_set_roundtrip_witness :
    (0 < sample_collaborators.block_size ∧
      sample_collaborators.deserialize (sample_collaborators.serialize sample_doc_a2) =
        some sample_doc_a2 ∧
      sample_collaborators.maxreflen < (sample_collaborators.serialize sample_doc_a2).length ∧
      (true = true ∨ find_slot sample_store.superblock [97] = none)) ∧
    rdb_get sample_collaborators [97]
        (rdb_set sample_collaborators [97] sample_doc_a2 true sample_store).2 =
      .ok { data := sample_doc_a2 } :=
  ⟨⟨by decide, by decide, by decide, Or.inl rfl⟩,
    (get_data_after_set_roundtrip sample_collaborators { value := none } [97] sample_doc_a2 true
      sample_store (by decide) (by decide) (Or.inl rfl)).2.2⟩

/-! ## Point operations: modify -/

/-- C6: when the evaluator returns `INSERTED` with a document and a primary-key value other
than the unescaped key, `rdb_modify` returns normally, the response holds `ERROR` with the
exception that names the primary key and the document, and the store is the one given. -/
theorem rdb_modify_insert_under_other_key (x : collaborators)
    (calculate_modify : calculate_modify_t) (primary_key : String) (key : store_key_t)
    (backtrace : backtrace_t) (st : store_t) (response : point_modify_response_t)
    (lhs new_row : cJSON) (out : modify_outcome_t)
    (hlhs : rdb_modify_lhs x primary_key (find_keyvalue_location_for_write st key) st.txn =
      .ok lhs)
    (hcalc : calculate_modify lhs primary_key = .ok out)
    (hres : out.res = .INSERTED) (hrow : out.new_row = some new_row)
    (hkey : out.new_key ≠ x.key_to_unescaped_str key) :
    rdb_modify x calculate_modify primary_key key backtrace st response =
      .ok ({ result := .ERROR,
             exc := some
               { message := "mutate can't change the primary key (" ++ primary_key ++
                   ") when doing an insert of " ++ x.Print new_row,
                 backtrace := backtrace } }, st) := by
  simp [rdb_modify, hlhs, hcalc, hres, hrow, hkey]

theorem rdb_modify_insert_under_other_key_witness :
    (rdb_modify_lhs sample_collaborators "id"
        (find_keyvalue_location_for_write sample_store [98]) sample_store.txn = .ok .Null ∧
      sample_upsert .Null "id" =
        .ok { res := .INSERTED, new_row := some sample_doc_a, new_key := "a" } ∧
      "a" ≠ sample_collaborators.key_to_unescaped_str [98]) ∧
    rdb_modify sample_collaborators sample_upsert "id" [98] ["insert"] sample_store
        sample_modify_response =
      .ok ({ result := .ERROR,
             exc := some
               { message := "mutate can't change the primary key (" ++ "id" ++
                   ") when doing an insert of " ++ sample_collaborators.Print sample_doc_a,
                 backtrace := ["insert"] } }, sample_store) :=
  ⟨⟨by rfl, by rfl, by decide⟩,
    rdb_modify_insert_under_other_key sample_collaborators sample_upsert "id" [98] ["insert"]
      sample_store sample_modify_response .Null sample_doc_a
      { res := .INSERTED, new_row := some sample_doc_a, new_key := "a" }
      (by rfl) (by rfl) rfl rfl (by decide)⟩

/-- C7, as the claim states it, fails: when the evaluator returns the outcome `ERROR`,
`rdb_modify` reaches `unreachable(...)` and aborts instead of filling the response. -/
theorem rdb_modify_returned_error_is_fault :
    rdb_modify sample_collaborators sample_returns_error "id" [97] [] sample_store
        sample_modify_response = .error .unreachable_reached ∧
      ¬ ∃ response st1,
        rdb_modify sample_collaborators sample_returns_error "id" [97] [] sample_store
          sample_modify_response = .ok (response, st1) := by
  have h : rdb_modify sample_collaborators sample_returns_error "id" [97] [] sample_store
      sample_modify_response = .error .unreachable_reached := by rfl
  refine ⟨h, ?_⟩
  rintro ⟨response, st1, h1⟩
  rw [h] at h1
  exact Except.noConfusion h1

/-- C7, amended: when the evaluator throws a domain exception, `rdb_modify` returns normally,
the response holds `ERROR` with that exception, and the store is the one given. -/
theorem rdb_modify_catches_exception (x : collaborators)
    (calculate_modify : calculate_modify_t) (primary_key : String) (key : store_key_t)
    (backtrace : backtrace_t) (st : store_t) (response : point_modify_response_t)
    (lhs : cJSON) (e : runtime_exc_t)
    (hlhs : rdb_modify_lhs x primary_key (find_keyvalue_location_for_write st key) st.txn =
      .ok lhs)
    (hcalc : calculate_modify lhs primary_key = .error e) :
    rdb_modify x calculate_modify primary_key key backtrace st response =
      .ok ({ result := .ERROR, exc := some e }, st) := by
  simp [rdb_modify, hlhs, hcalc]

theorem rdb_modify_catches_exception_witness :
    (rdb_modify_lhs sample_collaborators "id"
        (find_keyvalue_location_for_write sample_store [97]) sample_store.txn =
        .ok sample_doc_a ∧
      sample_throws sample_doc_a "id" =
        .error { message := "evaluation failed", backtrace := ["mapping"] }) ∧
    rdb_modify sample_collaborators sample_throws "id" [97] [] sample_store
        sample_modify_response =
      .ok ({ result := .ERROR,
             exc := some { message := "evaluation failed", backtrace := ["mapping"] } },
        sample_store) :=
  ⟨⟨by rfl, by rfl⟩,
    rdb_modify_catches_exception sample_collaborators sample_throws "id" [97] [] sample_store
      sample_modify_response sample_doc_a
      { message := "evaluation failed", backtrace := ["mapping"] } (by rfl) (by rfl)⟩

/-- C8: when the evaluator returns `MODIFIED`, or `INSERTED` with the unescaped key as
primary-key value, together with a document, `rdb_modify` puts that outcome in the response
and returns the store of `kv_location_set` for the document, which is the same store for both
outcomes: `rdb_get` of the key returns the document and the other keys are as before. -/
theorem rdb_modify_commits_new_row (x : collaborators)
    (calculate_modify : calculate_modify_t) (primary_key : String) (key : store_key_t)
    (backtrace : backtrace_t) (st : store_t) (response : point_modify_response_t)
    (lhs new_row : cJSON) (out : modify_outcome_t)
    (hbs : 0 < x.block_size) (hcodec : x.deserialize (x.serialize new_row) = some new_row)
    (hlhs : rdb_modify_lhs x primary_key (find_keyvalue_location_for_write st key) st.txn =
      .ok lhs)
    (hcalc : calculate_modify lhs primary_key = .ok out)
    (hres : out.res = .MODIFIED ∨
      (out.res = .INSERTED ∧ out.new_key = x.key_to_unescaped_str key))
    (hrow : out.new_row = some new_row) :
    rdb_modify x calculate_modify primary_key key backtrace st response =
        .ok ({ response with result := out.res },
          kv_location_set x (find_keyvalue_location_for_write st key) key new_row st) ∧
      rdb_get x key
          (kv_location_set x (find_keyvalue_location_for_write st key) key new_row st) =
        .ok { data := new_row } ∧
      ∀ other, other ≠ key →
        find_slot (kv_location_set x (find_keyvalue_location_for_write st key) key new_row
            st).superblock other = find_slot st.superblock other := by
  refine ⟨?_, ?_, ?_⟩
  · rcases hres with h | ⟨h, hk⟩
    · simp [rdb_modify, hlhs, hcalc, h, hrow]
    · simp [rdb_modify, hlhs, hcalc, h, hrow, hk]
  · obtain ⟨v, hf, he⟩ := kv_location_set_expose x (find_keyvalue_location_for_write st key)
      key new_row st hbs
    simp [rdb_get, find_keyvalue_location_for_read, hf, get_data, he, hcodec]
  · intro other hne
    exact kv_location_set_find_other x _ key other new_row st hne

theorem rdb_modify_commits_new_row_witness :
    (0 < sample_collaborators.block_size ∧
      sample_collaborators.deserialize (sample_collaborators.serialize sample_doc_a) =
        some sample_doc_a ∧
      rdb_modify_lhs sample_collaborators "id"
        (find_keyvalue_location_for_write empty_store [97]) empty_store.txn = .ok .Null ∧
      sample_upsert .Null "id" =
        .ok { res := .INSERTED, new_row := some sample_doc_a, new_key := "a" } ∧
      "a" = sample_collaborators.key_to_unescaped_str [97]) ∧
    rdb_modify sample_collaborators sample_upsert "id" [97] [] empty_store
        sample_modify_response =
      .ok ({ result := .INSERTED, exc := none }, sample_store) :=
  ⟨⟨by decide, by decide, by rfl, by rfl, by decide⟩,
    (rdb_modify_commits_new_row sample_collaborators sample_upsert "id" [97] [] empty_store
      sample_modify_response .Null sample_doc_a
      { res := .INSERTED, new_row := some sample_doc_a, new_key := "a" }
      (by decide) (by decide) (by rfl) (by rfl) (Or.inr ⟨rfl, by decide⟩) rfl).1⟩

/-! ## Lemmas on keys -/

theorem key_lt_iff_lex (a b : store_key_t) : a < b ↔ List.Lex (· < ·) a b := Iff.rfl

theorem key_lt_just_past_iff (key k : store_key_t) : k < key_just_past key ↔ k ≤ key := by
  unfold key_just_past
  induction key generalizing k with
  | nil =>
    cases k with
    | nil => exact ⟨fun _ => le_refl _, fun _ => List.Lex.nil⟩
    | cons a t =>
      constructor
      · intro h
        rw [List.nil_append, key_lt_iff_lex] at h
        cases h with
        | cons h1 => exact absurd h1 (List.Lex.not_nil_right _ _)
        | rel h1 => exact absurd h1 (Nat.not_lt_zero _)
      · intro h
        exact absurd (List.nil_lt_cons a t) (not_lt.mpr h)
  | cons b key1 ih =>
    cases k with
    | nil => exact ⟨fun _ => List.nil_le, fun _ => List.Lex.nil⟩
    | cons a t =>
      constructor
      · intro h
        rw [List.cons_append, key_lt_iff_lex] at h
        cases h with
        | cons h1 => exact List.cons_le_cons _ ((ih t).mp h1)
        | rel h1 => exact le_of_lt (List.Lex.rel h1)
      · intro h
        rw [List.cons_append, key_lt_iff_lex]
        rcases lt_trichotomy a b with hab | hab | hab
        · exact List.Lex.rel hab
        · subst hab
          apply List.Lex.cons
          apply (ih t).mpr
          apply not_lt.mp
          intro hlt
          exact absurd (List.Lex.cons hlt) (not_lt.mpr h)
        · exact absurd (List.Lex.rel hab) (not_lt.mpr h)

theorem key_just_past_le_iff (key k : store_key_t) : key_just_past key ≤ k ↔ key < k := by
  rw [← not_lt, key_lt_just_past_iff, not_le]

/-! ## Lemmas on the traversal in stream mode -/

theorem push_stream_eq (key : store_key_t) (ds : List cJSON) (s : stream_t) (c : Nat)
    (h : c + 250 * ds.length < size_t_modulus) :
    push_stream key ds (s, c) = (s ++ ds.map (fun d => (key, d)), c + 250 * ds.length) := by
  induction ds generalizing s c with
  | nil => simp [push_stream]
  | cons d ds ih =>
    simp only [List.length_cons] at h
    have h1 : (c + estimate_rget_response_size d) % size_t_modulus = c + 250 := by
      unfold estimate_rget_response_size
      apply Nat.mod_eq_of_lt
      omega
    have h2 : c + 250 + 250 * ds.length < size_t_modulus := by omega
    simp only [push_stream, h1, ih _ _ h2, List.map_cons, List.length_cons, List.append_assoc,
      List.singleton_append]
    congr 1
    omega

theorem emitted_eq_some (x : collaborators) (txn : transaction_t) (transform : transform_t)
    (value : rdb_value_t) (ds : List cJSON) (h : emitted x txn transform value = some ds) :
    ∃ json, get_data x value txn = .ok json ∧ apply_transforms transform [json] = .ok ds := by
  unfold emitted at h
  cases hg : get_data x value txn with
  | error f => simp [hg] at h
  | ok json =>
    cases ha : apply_transforms transform [json] with
    | error e => simp [hg, ha] at h
    | ok data =>
      simp [hg, ha] at h
      exact ⟨json, rfl, by rw [← h, ha]⟩

theorem handle_pair_stream (x : collaborators) (txn : transaction_t) (transform : transform_t)
    (s : stream_t) (lk : store_key_t) (tr : Bool) (c : Nat) (key : store_key_t)
    (value : rdb_value_t) (ds : List cJSON) (he : emitted x txn transform value = some ds)
    (hw : c + 250 * ds.length < size_t_modulus) :
    handle_pair x txn transform none (stream_callback s lk tr c) key value =
      .ok (decide (c + 250 * ds.length < x.rget_max_chunk_size),
        stream_callback (s ++ ds.map (fun d => (key, d))) (if lk < key then key else lk) tr
          (c + 250 * ds.length)) := by
  obtain ⟨json, hg, ha⟩ := emitted_eq_some x txn transform value ds he
  by_cases hlt : lk < key
  · simp [handle_pair, stream_callback, hg, ha, hlt, push_stream_eq _ _ _ _ hw]
  · simp [handle_pair, stream_callback, hg, ha, hlt, push_stream_eq _ _ _ _ hw]

theorem stream_of_cons (x : collaborators) (txn : transaction_t) (transform : transform_t)
    (p : store_key_t × rdb_value_t) (rest : List (store_key_t × rdb_value_t)) :
    stream_of x txn transform (p :: rest) =
      ((emitted x txn transform p.2).getD []).map (fun d => (p.1, d)) ++
        stream_of x txn transform rest := by
  simp [stream_of]

theorem stream_of_append (x : collaborators) (txn : transaction_t) (transform : transform_t)
    (a b : List (store_key_t × rdb_value_t)) :
    stream_of x txn transform (a ++ b) =
      stream_of x txn transform a ++ stream_of x txn transform b := by
  simp [stream_of]

/-- The traversal in stream mode: it visits a first part of the pairs, at least one if there
is one, and stops after the first pair at which the cumulative size reaches the cap. -/
theorem traverse_pairs_stream (x : collaborators) (txn : transaction_t) (transform : transform_t)
    (pairs : List (store_key_t × rdb_value_t)) (s : stream_t) (lk : store_key_t) (tr : Bool)
    (c : Nat)
    (hok : ∀ p ∈ pairs, emitted x txn transform p.2 ≠ none)
    (hw : c + estimated_size (stream_of x txn transform pairs) < size_t_modulus) :
    ∃ n, n ≤ pairs.length ∧
      traverse_pairs x txn transform none pairs (stream_callback s lk tr c) =
        .ok (stream_callback (s ++ stream_of x txn transform (pairs.take n))
          (last_key (pairs.take n) lk) tr
          (c + estimated_size (stream_of x txn transform (pairs.take n)))) ∧
      (pairs ≠ [] → 0 < n) ∧
      (n = pairs.length ∨
        x.rget_max_chunk_size ≤ c + estimated_size (stream_of x txn transform (pairs.take n))) ∧
      (∀ m, 0 < m → m < n →
        c + estimated_size (stream_of x txn transform (pairs.take m)) <
          x.rget_max_chunk_size) := by
  induction pairs generalizing s lk c with
  | nil =>
    refine ⟨0, le_refl _, ?_, fun h => absurd rfl h, Or.inl rfl, ?_⟩
    · simp [traverse_pairs, stream_of, last_key, estimated_size]
    · intro m h1 h2
      omega
  | cons p rest ih =>
    obtain ⟨key, value⟩ := p
    have hsome : ∃ ds, emitted x txn transform value = some ds := by
      have := hok (key, value) (List.mem_cons_self _ _)
      cases h : emitted x txn transform value with
      | none => exact absurd h this
      | some ds => exact ⟨ds, rfl⟩
    obtain ⟨ds, hds⟩ := hsome
    have hcons : ∀ l, stream_of x txn transform ((key, value) :: l) =
        ds.map (fun d => (key, d)) ++ stream_of x txn transform l := by
      intro l
      rw [stream_of_cons, hds]
      rfl
    have hw1 : c + 250 * ds.length + estimated_size (stream_of x txn transform rest) <
        size_t_modulus := by
      rw [hcons] at hw
      simp only [estimated_size, List.length_append, List.length_map] at hw ⊢
      omega
    have hw0 : c + 250 * ds.length < size_t_modulus := by omega
    have hnil : stream_of x txn transform [] = [] := rfl
    have hstep := handle_pair_stream x txn transform s lk tr c key value ds hds hw0
    by_cases hcap : c + 250 * ds.length < x.rget_max_chunk_size
    · obtain ⟨n, hn, htrav, _, hstop, hmin⟩ :=
        ih (s ++ ds.map (fun d => (key, d))) (if lk < key then key else lk)
          (c + 250 * ds.length) (fun q hq => hok q (List.mem_cons_of_mem _ hq)) hw1
      refine ⟨n + 1, by simpa using hn, ?_, fun _ => Nat.succ_pos _, ?_, ?_⟩
      · simp only [traverse_pairs, hstep, hcap, decide_True, htrav, List.take_succ_cons, hcons,
          last_key, List.foldl_cons, estimated_size, List.length_append, List.length_map,
          List.append_assoc]
        congr 2
        omega
      · rcases hstop with h | h
        · left
          simp [h]
        · right
          simp only [List.take_succ_cons, hcons, estimated_size, List.length_append,
            List.length_map] at h ⊢
          omega
      · intro m hm0 hmn
        obtain ⟨m1, rfl⟩ : ∃ m1, m = m1 + 1 := ⟨m - 1, by omega⟩
        simp only [List.take_succ_cons, hcons, estimated_size, List.length_append,
          List.length_map]
        by_cases hm1 : m1 = 0
        · subst hm1
          simp only [List.take_zero, hnil, List.length_nil]
          omega
        · have := hmin m1 (by omega) (by omega)
          simp only [estimated_size] at this
          omega
    · refine ⟨1, by simp, ?_, fun _ => Nat.one_pos, ?_, ?_⟩
      · simp only [traverse_pairs, hstep, hcap, decide_False, List.take_succ_cons, hcons,
          List.take_zero, last_key, List.foldl_cons, List.foldl_nil, estimated_size,
          List.length_append, List.length_map, hnil, List.append_nil,
          List.length_nil]
      · right
        simp only [List.take_succ_cons, List.take_zero, hcons, estimated_size,
          List.length_append, List.length_map, hnil, List.length_nil]
        omega
      · intro m h1 h2
        omega

/-! ## Lemmas on ranges -/

theorem le_last_key (l : List (store_key_t × rdb_value_t)) (start : store_key_t) :
    start ≤ last_key l start ∧ ∀ p ∈ l, p.1 ≤ last_key l start := by
  induction l generalizing start with
  | nil => simp [last_key]
  | cons q l ih =>
    have hstep : last_key (q :: l) start = last_key l (if start < q.1 then q.1 else start) := rfl
    rw [hstep]
    obtain ⟨h1, h2⟩ := ih (if start < q.1 then q.1 else start)
    have hs : start ≤ (if start < q.1 then q.1 else start) := by
      split
      · exact le_of_lt ‹_›
      · exact le_refl _
    have hq : q.1 ≤ (if start < q.1 then q.1 else start) := by
      split
      · exact le_refl _
      · exact not_lt.mp ‹_›
    refine ⟨le_trans hs h1, ?_⟩
    intro p hp
    rcases List.mem_cons.mp hp with rfl | hp
    · exact le_trans hq h1
    · exact h2 p hp

theorem last_key_mem (l : List (store_key_t × rdb_value_t)) (start : store_key_t) :
    last_key l start = start ∨ ∃ p ∈ l, last_key l start = p.1 := by
  induction l generalizing start with
  | nil => left; rfl
  | cons q l ih =>
    have hstep : last_key (q :: l) start = last_key l (if start < q.1 then q.1 else start) := rfl
    rw [hstep]
    rcases ih (if start < q.1 then q.1 else start) with h | ⟨p, hp, h⟩
    · rw [h]
      split
      · right
        exact ⟨q, List.mem_cons_self _ _, rfl⟩
      · left
        rfl
    · right
      exact ⟨p, List.mem_cons_of_mem _ hp, h⟩

theorem range_pairs_ascending (sb : superblock_t) (range : key_range_t) (h : ascending sb) :
    ascending (range_pairs sb range) :=
  List.Pairwise.filter _ h

theorem range_pairs_left_le (sb : superblock_t) (range : key_range_t) :
    ∀ p ∈ range_pairs sb range, range.left ≤ p.1 := by
  intro p hp
  have := (List.mem_filter.mp hp).2
  simp only [key_range_t.contains_key, Bool.and_eq_true, decide_eq_true_eq] at this
  exact this.1

/-- After a first part of the pairs of a range has been visited, the range that starts just
past the last considered key holds the pairs that are left. -/
theorem range_pairs_just_past (sb : superblock_t) (range : key_range_t) (n : Nat)
    (hasc : ascending sb) (hn : 0 < n) (hlen : n ≤ (range_pairs sb range).length) :
    range_pairs sb
        { range with left := key_just_past (last_key ((range_pairs sb range).take n) range.left) } =
      (range_pairs sb range).drop n := by
  have hasc1 := range_pairs_ascending sb range hasc
  have hleft := range_pairs_left_le sb range
  generalize hpairs : range_pairs sb range = pairs at hasc1 hleft hlen
  generalize hlk : last_key (pairs.take n) range.left = lk
  obtain ⟨hle1, hle2⟩ := le_last_key (pairs.take n) range.left
  rw [hlk] at hle1 hle2
  have hsplit : pairs.take n ++ pairs.drop n = pairs := List.take_append_drop n pairs
  have hpw : (pairs.take n ++ pairs.drop n).Pairwise (fun p q => p.1 < q.1) := by
    rw [hsplit]
    exact hasc1
  rw [List.pairwise_append] at hpw
  have hne : pairs.take n ≠ [] := by
    intro h
    have := congrArg List.length h
    simp only [List.length_take, List.length_nil] at this
    omega
  have hlt : ∀ d ∈ pairs.drop n, lk < d.1 := by
    intro d hd
    obtain ⟨q, hq⟩ := List.exists_mem_of_ne_nil _ hne
    rcases last_key_mem (pairs.take n) range.left with h | ⟨p, hp, h⟩
    · rw [hlk] at h
      have h1 : q.1 ≤ lk := hle2 q hq
      have h2 : lk ≤ q.1 := by
        rw [h]
        exact hleft q (List.mem_of_mem_take hq)
      exact lt_of_le_of_lt h2 (hpw.2.2 q hq d hd)
    · rw [hlk] at h
      rw [h]
      exact hpw.2.2 p hp d hd
  have hfilter : range_pairs sb { range with left := key_just_past lk } =
      pairs.filter (fun p => decide (lk < p.1)) := by
    rw [← hpairs]
    unfold range_pairs
    rw [List.filter_filter]
    apply List.filter_congr
    intro p _
    simp only [key_range_t.contains_key, key_just_past_le_iff]
    by_cases h : lk < p.1
    · have : range.left ≤ p.1 := le_of_lt (lt_of_le_of_lt hle1 h)
      simp [h, this]
    · simp [h]
  rw [hfilter]
  conv_lhs => rw [← hsplit]
  rw [List.filter_append]
  have h1 : (pairs.take n).filter (fun p => decide (lk < p.1)) = [] := by
    rw [List.filter_eq_nil_iff]
    intro p hp
    simpa using hle2 p hp
  have h2 : (pairs.drop n).filter (fun p => decide (lk < p.1)) = pairs.drop n := by
    rw [List.filter_eq_self]
    intro p hp
    simpa using hlt p hp
  rw [h1, h2, List.nil_append]

/-! ## Stream scans and their resumption -/

/-- A stream scan of a range: the response of `rdb_rget_slice` in terms of the number of pairs
it visits. -/
theorem rdb_rget_slice_stream_scan (x : collaborators) (st : store_t) (range : key_range_t)
    (transform : transform_t) (response : rget_read_response_t) (s0 : stream_t)
    (hres : response.result = .stream s0)
    (hok : ∀ p ∈ range_pairs st.superblock range, emitted x st.txn transform p.2 ≠ none)
    (hw : estimated_size (stream_of x st.txn transform (range_pairs st.superblock range)) <
      size_t_modulus) :
    ∃ n, n ≤ (range_pairs st.superblock range).length ∧
      rdb_rget_slice x st range transform none response =
        .ok { result := .stream
                (s0 ++ stream_of x st.txn transform ((range_pairs st.superblock range).take n))
              last_considered_key :=
                last_key ((range_pairs st.superblock range).take n) range.left
              truncated := decide (x.rget_max_chunk_size ≤ estimated_size
                (stream_of x st.txn transform ((range_pairs st.superblock range).take n))) } ∧
      ((range_pairs st.superblock range) ≠ [] → 0 < n) ∧
      (n = (range_pairs st.superblock range).length ∨
        x.rget_max_chunk_size ≤ estimated_size
          (stream_of x st.txn transform ((range_pairs st.superblock range).take n))) ∧
      (∀ m, 0 < m → m < n →
        estimated_size (stream_of x st.txn transform ((range_pairs st.superblock range).take m)) <
          x.rget_max_chunk_size) := by
  obtain ⟨n, hn, htrav, hpos, hstop, hmin⟩ :=
    traverse_pairs_stream x st.txn transform (range_pairs st.superblock range) s0 range.left
      response.truncated 0 hok (by simpa using hw)
  have hcb : rdb_rget_depth_first_traversal_callback_t.create none range response =
      stream_callback s0 range.left response.truncated 0 := by
    simp [rdb_rget_depth_first_traversal_callback_t.create, stream_callback, hres]
  refine ⟨n, hn, ?_, hpos, by simpa using hstop, by simpa using hmin⟩
  simp only [rdb_rget_slice, btree_depth_first_traversal, hcb, htrav, Nat.zero_add]
  by_cases hc : x.rget_max_chunk_size ≤ estimated_size
      (stream_of x st.txn transform ((range_pairs st.superblock range).take n))
  · simp [stream_callback, hc]
  · simp [stream_callback, hc]

theorem emitted_with_chunk_cap (x : collaborators) (cap : Nat) (txn : transaction_t)
    (transform : transform_t) (value : rdb_value_t) :
    emitted (with_chunk_cap x cap) txn transform value = emitted x txn transform value := rfl

theorem stream_of_with_chunk_cap (x : collaborators) (cap : Nat) (txn : transaction_t)
    (transform : transform_t) (pairs : List (store_key_t × rdb_value_t)) :
    stream_of (with_chunk_cap x cap) txn transform pairs = stream_of x txn transform pairs := rfl

theorem estimated_size_take_le (x : collaborators) (txn : transaction_t)
    (transform : transform_t) (pairs : List (store_key_t × rdb_value_t)) (n : Nat) :
    estimated_size (stream_of x txn transform (pairs.take n)) ≤
      estimated_size (stream_of x txn transform pairs) := by
  have h : stream_of x txn transform pairs =
      stream_of x txn transform (pairs.take n) ++ stream_of x txn transform (pairs.drop n) := by
    rw [← stream_of_append, List.take_append_drop]
  rw [h]
  simp only [estimated_size, List.length_append]
  omega

theorem estimated_size_drop_le (x : collaborators) (txn : transaction_t)
    (transform : transform_t) (pairs : List (store_key_t × rdb_value_t)) (n : Nat) :
    estimated_size (stream_of x txn transform (pairs.drop n)) ≤
      estimated_size (stream_of x txn transform pairs) := by
  have h : stream_of x txn transform pairs =
      stream_of x txn transform (pairs.take n) ++ stream_of x txn transform (pairs.drop n) := by
    rw [← stream_of_append, List.take_append_drop]
  rw [h]
  simp only [estimated_size, List.length_append]
  omega

/-- With the empty transform chain every pair that decodes gives one entry of the stream,
under its own key. -/
theorem stream_of_keys (x : collaborators) (txn : transaction_t)
    (pairs : List (store_key_t × rdb_value_t))
    (hok : ∀ p ∈ pairs, emitted x txn [] p.2 ≠ none) :
    (stream_of x txn [] pairs).map Prod.fst = pairs.map Prod.fst := by
  induction pairs with
  | nil => rfl
  | cons p rest ih =>
    have hp := hok p (List.mem_cons_self _ _)
    have hone : ∃ d, emitted x txn [] p.2 = some [d] := by
      unfold emitted at hp ⊢
      cases hg : get_data x p.2 txn with
      | error f => simp [hg] at hp
      | ok json => exact ⟨json, by simp [apply_transforms]⟩
    obtain ⟨d, hd⟩ := hone
    rw [stream_of_cons, hd]
    simp [ih (fun q hq => hok q (List.mem_cons_of_mem _ hq))]

theorem range_pairs_just_past_of_empty (sb : superblock_t) (range : key_range_t)
    (h : range_pairs sb range = []) :
    range_pairs sb { left := key_just_past range.left, right := range.right } = [] := by
  unfold range_pairs at h ⊢
  rw [List.filter_eq_nil_iff] at h ⊢
  intro p hp hc
  apply h p hp
  simp only [key_range_t.contains_key, key_just_past_le_iff, Bool.and_eq_true,
    decide_eq_true_eq] at hc ⊢
  exact ⟨le_of_lt hc.1, hc.2⟩

/-- The resumed scans return the stream of the whole range once there have been as many scans
as pairs, and they come to an end, for a positive chunk cap, with one scan more. -/
theorem rget_resume_stream (x : collaborators) (st : store_t) (hasc : ascending st.superblock) :
    ∀ (fuel : Nat) (range : key_range_t),
      (range_pairs st.superblock range).length ≤ fuel →
      (∀ p ∈ range_pairs st.superblock range, emitted x st.txn [] p.2 ≠ none) →
      estimated_size (stream_of x st.txn [] (range_pairs st.superblock range)) <
        size_t_modulus →
      ∃ finished, rget_resume x st fuel range =
          .ok (stream_of x st.txn [] (range_pairs st.superblock range), finished) ∧
        (0 < x.rget_max_chunk_size → (range_pairs st.superblock range).length < fuel →
          finished = true) := by
  intro fuel
  induction fuel with
  | zero =>
    intro range h _ _
    have hnil : range_pairs st.superblock range = [] := List.eq_nil_of_length_eq_zero (by omega)
    refine ⟨false, ?_, fun _ h1 => by omega⟩
    rw [hnil]
    rfl
  | succ fuel ih =>
    intro range hlen hok hw
    obtain ⟨n, hn, hslice, hpos, hstop, _⟩ :=
      rdb_rget_slice_stream_scan x st range [] rget_read_response_t.fresh [] rfl hok hw
    by_cases hc : x.rget_max_chunk_size ≤ estimated_size
        (stream_of x st.txn [] ((range_pairs st.superblock range).take n))
    · rcases Nat.eq_zero_or_pos n with h0 | hnpos
      · subst h0
        have hnil : range_pairs st.superblock range = [] := by
          by_contra hne
          exact absurd (hpos hne) (Nat.lt_irrefl 0)
        have hcap0 : x.rget_max_chunk_size = 0 := by
          simp only [List.take_zero, estimated_size, stream_of, List.flatMap_nil,
            List.length_nil] at hc
          omega
        have hnext := range_pairs_just_past_of_empty st.superblock range hnil
        obtain ⟨finished, hrec, _⟩ := ih
          { left := key_just_past range.left, right := range.right }
          (by rw [hnext]; exact Nat.zero_le _)
          (by rw [hnext]; exact fun p hp => absurd hp (List.not_mem_nil p))
          (by rw [hnext]; exact (by decide : 0 < size_t_modulus))
        rw [hnext] at hrec
        refine ⟨finished, ?_, fun h => by omega⟩
        rw [hnil] at hslice ⊢
        simp only [rget_resume, hslice, List.take_nil, last_key, List.foldl_nil, hrec]
        simp [estimated_size, stream_of, hcap0]
      · have hnext := range_pairs_just_past st.superblock range n hasc hnpos hn
        obtain ⟨finished, hrec, hfin⟩ := ih
          { left := key_just_past
              (last_key ((range_pairs st.superblock range).take n) range.left),
            right := range.right }
          (by rw [hnext, List.length_drop]; omega)
          (by rw [hnext]; exact fun p hp => hok p (List.mem_of_mem_drop hp))
          (by rw [hnext]; exact lt_of_le_of_lt (estimated_size_drop_le _ _ _ _ _) hw)
        rw [hnext] at hrec hfin
        refine ⟨finished, ?_, fun h1 h2 => hfin h1 (by rw [List.length_drop]; omega)⟩
        simp only [rget_resume, hslice, hc, decide_True, if_true, hrec, List.nil_append]
        rw [← stream_of_append, List.take_append_drop]
    · have hall : n = (range_pairs st.superblock range).length := by
        rcases hstop with h | h
        · exact h
        · exact absurd h hc
      refine ⟨true, ?_, fun _ _ => rfl⟩
      simp only [rget_resume, hslice, hc, decide_False, List.nil_append]
      rw [hall, List.take_length]
      rfl

/-- The traversal in stream mode, when only the pairs it visits are known to decode and to
pass the transform chain: if the first `k` pairs do, and they are all the pairs or reach the
cap, the traversal stops within them, after the shortest first part that reaches the cap. -/
theorem traverse_pairs_stream_visited (x : collaborators) (txn : transaction_t)
    (transform : transform_t) (pairs : List (store_key_t × rdb_value_t)) (k : Nat)
    (s : stream_t) (lk : store_key_t) (tr : Bool) (c : Nat)
    (hc : c < x.rget_max_chunk_size) (hk : k ≤ pairs.length)
    (hok : ∀ p ∈ pairs.take k, emitted x txn transform p.2 ≠ none)
    (hw : c + estimated_size (stream_of x txn transform (pairs.take k)) < size_t_modulus)
    (hreach : k = pairs.length ∨
      x.rget_max_chunk_size ≤ c + estimated_size (stream_of x txn transform (pairs.take k))) :
    ∃ n, n ≤ k ∧
      traverse_pairs x txn transform none pairs (stream_callback s lk tr c) =
        .ok (stream_callback (s ++ stream_of x txn transform (pairs.take n))
          (last_key (pairs.take n) lk) tr
          (c + estimated_size (stream_of x txn transform (pairs.take n)))) ∧
      (n = pairs.length ∨
        x.rget_max_chunk_size ≤ c + estimated_size (stream_of x txn transform (pairs.take n))) ∧
      (∀ m, m < n →
        c + estimated_size (stream_of x txn transform (pairs.take m)) <
          x.rget_max_chunk_size) := by
  have hnil : stream_of x txn transform [] = [] := rfl
  induction pairs generalizing k s lk c with
  | nil =>
    refine ⟨0, Nat.zero_le _, ?_, Or.inl rfl, ?_⟩
    · simp [traverse_pairs, stream_of, last_key, estimated_size]
    · intro m h1
      omega
  | cons p rest ih =>
    obtain ⟨key, value⟩ := p
    obtain ⟨k1, rfl⟩ : ∃ k1, k = k1 + 1 := by
      rcases Nat.eq_zero_or_pos k with h0 | h0
      · subst h0
        rcases hreach with h | h
        · simp at h
        · simp only [List.take_zero, hnil, estimated_size, List.length_nil] at h
          omega
      · exact ⟨k - 1, by omega⟩
    simp only [List.take_succ_cons] at hok hw hreach
    have hsome : ∃ ds, emitted x txn transform value = some ds := by
      have := hok (key, value) (List.mem_cons_self _ _)
      cases h : emitted x txn transform value with
      | none => exact absurd h this
      | some ds => exact ⟨ds, rfl⟩
    obtain ⟨ds, hds⟩ := hsome
    have hcons : ∀ l, stream_of x txn transform ((key, value) :: l) =
        ds.map (fun d => (key, d)) ++ stream_of x txn transform l := by
      intro l
      rw [stream_of_cons, hds]
      rfl
    have hsize : ∀ l, estimated_size (stream_of x txn transform ((key, value) :: l)) =
        250 * ds.length + estimated_size (stream_of x txn transform l) := by
      intro l
      rw [hcons]
      simp only [estimated_size, List.length_append, List.length_map]
      omega
    rw [hsize] at hw hreach
    have hw0 : c + 250 * ds.length < size_t_modulus := by omega
    have hstep := handle_pair_stream x txn transform s lk tr c key value ds hds hw0
    by_cases hcap : c + 250 * ds.length < x.rget_max_chunk_size
    · obtain ⟨n, hn, htrav, hstop, hmin⟩ :=
        ih k1 (s ++ ds.map (fun d => (key, d))) (if lk < key then key else lk)
          (c + 250 * ds.length) hcap (by simpa using hk)
          (fun q hq => hok q (List.mem_cons_of_mem _ hq)) (by omega)
          (by
            rcases hreach with h | h
            · left
              simpa using h
            · right
              omega)
      refine ⟨n + 1, by omega, ?_, ?_, ?_⟩
      · simp only [traverse_pairs, hstep, hcap, decide_True, htrav, List.take_succ_cons, hcons,
          last_key, List.foldl_cons, estimated_size, List.length_append, List.length_map,
          List.append_assoc]
        congr 2
        omega
      · rcases hstop with h | h
        · left
          simp [h]
        · right
          rw [List.take_succ_cons, hsize]
          omega
      · intro m hmn
        rcases Nat.eq_zero_or_pos m with h0 | h0
        · subst h0
          simp only [List.take_zero, hnil, estimated_size, List.length_nil]
          omega
        · obtain ⟨m1, rfl⟩ : ∃ m1, m = m1 + 1 := ⟨m - 1, by omega⟩
          rw [List.take_succ_cons, hsize]
          have := hmin m1 (by omega)
          omega
    · refine ⟨1, by omega, ?_, ?_, ?_⟩
      · simp only [traverse_pairs, hstep, hcap, decide_False, List.take_succ_cons, hcons,
          List.take_zero, last_key, List.foldl_cons, List.foldl_nil, estimated_size,
          List.length_append, List.length_map, hnil, List.append_nil, List.length_nil]
      · right
        rw [List.take_succ_cons, List.take_zero, hsize, hnil]
        simp only [estimated_size, List.length_nil]
        omega
      · intro m h1
        have h0 : m = 0 := by omega
        subst h0
        simp only [List.take_zero, hnil, estimated_size, List.length_nil]
        omega

/-- C9: in stream mode, for a positive chunk cap, when the first `k` pairs of the range decode
and pass the transform chain without error, their estimated size fits a `size_t`, and they are
all the pairs of the range or reach the cap, `rdb_rget_slice` appends the documents of the
shortest first part of the pairs after which the cumulative size (250 for each document) is at
least the cap, of all the pairs if the cap is not reached; `truncated` tells whether the final
cumulative size is at least the cap, and `handle_pair` returns whether the cumulative size is
still below the cap. -/
theorem rdb_rget_slice_stream_chunk (x : collaborators) (st : store_t) (range : key_range_t)
    (transform : transform_t) (response : rget_read_response_t) (s0 : stream_t) (k : Nat)
    (hcap : 0 < x.rget_max_chunk_size)
    (hres : response.result = .stream s0)
    (hk : k ≤ (range_pairs st.superblock range).length)
    (hok : ∀ p ∈ (range_pairs st.superblock range).take k,
      emitted x st.txn transform p.2 ≠ none)
    (hw : estimated_size
        (stream_of x st.txn transform ((range_pairs st.superblock range).take k)) <
      size_t_modulus)
    (hreach : k = (range_pairs st.superblock range).length ∨
      x.rget_max_chunk_size ≤ estimated_size
        (stream_of x st.txn transform ((range_pairs st.superblock range).take k))) :
    (∃ n, n ≤ k ∧
      rdb_rget_slice x st range transform none response =
        .ok { result := .stream
                (s0 ++ stream_of x st.txn transform ((range_pairs st.superblock range).take n))
              last_considered_key :=
                last_key ((range_pairs st.superblock range).take n) range.left
              truncated := decide (x.rget_max_chunk_size ≤ estimated_size
                (stream_of x st.txn transform ((range_pairs st.superblock range).take n))) } ∧
      (n = (range_pairs st.superblock range).length ∨
        x.rget_max_chunk_size ≤ estimated_size
          (stream_of x st.txn transform ((range_pairs st.superblock range).take n))) ∧
      (∀ m, m < n →
        estimated_size (stream_of x st.txn transform ((range_pairs st.superblock range).take m)) <
          x.rget_max_chunk_size)) ∧
    (∀ (s : stream_t) (lk : store_key_t) (tr : Bool) (c : Nat) (key : store_key_t)
        (value : rdb_value_t) (ds : List cJSON),
      emitted x st.txn transform value = some ds → c + 250 * ds.length < size_t_modulus →
      handle_pair x st.txn transform none (stream_callback s lk tr c) key value =
        .ok (decide (c + 250 * ds.length < x.rget_max_chunk_size),
          stream_callback (s ++ ds.map (fun d => (key, d))) (if lk < key then key else lk) tr
            (c + 250 * ds.length))) := by
  refine ⟨?_, fun s lk tr c key value ds he hc =>
    handle_pair_stream x st.txn transform s lk tr c key value ds he hc⟩
  obtain ⟨n, hn, htrav, hstop, hmin⟩ :=
    traverse_pairs_stream_visited x st.txn transform (range_pairs st.superblock range) k s0
      range.left response.truncated 0 hcap hk hok (by simpa using hw) (by simpa using hreach)
  have hcb : rdb_rget_depth_first_traversal_callback_t.create none range response =
      stream_callback s0 range.left response.truncated 0 := by
    simp [rdb_rget_depth_first_traversal_callback_t.create, stream_callback, hres]
  refine ⟨n, hn, ?_, by simpa using hstop, by simpa using hmin⟩
  simp only [rdb_rget_slice, btree_depth_first_traversal, hcb, htrav, Nat.zero_add]
  by_cases hc : x.rget_max_chunk_size ≤ estimated_size
      (stream_of x st.txn transform ((range_pairs st.superblock range).take n))
  · simp [stream_callback, hc]
  · simp [stream_callback, hc]

theorem rdb_rget_slice_stream_chunk_witness :
    (0 < sample_collaborators.rget_max_chunk_size ∧
      rget_read_response_t.fresh.result = .stream [] ∧
      1 ≤ (range_pairs sample_store3.superblock whole_range).length ∧
      (∀ p ∈ (range_pairs sample_store3.superblock whole_range).take 1,
        emitted sample_collaborators sample_store3.txn [sample_rejects_a2, sample_twice] p.2 ≠
          none) ∧
      estimated_size (stream_of sample_collaborators sample_store3.txn
        [sample_rejects_a2, sample_twice]
        ((range_pairs sample_store3.superblock whole_range).take 1)) < size_t_modulus ∧
      (1 = (range_pairs sample_store3.superblock whole_range).length ∨
        sample_collaborators.rget_max_chunk_size ≤ estimated_size
          (stream_of sample_collaborators sample_store3.txn [sample_rejects_a2, sample_twice]
            ((range_pairs sample_store3.superblock whole_range).take 1)))) ∧
    rdb_rget_slice sample_collaborators sample_store3 whole_range
        [sample_rejects_a2, sample_twice] none rget_read_response_t.fresh =
      .ok { result := .stream [([97], sample_doc_a), ([97], sample_doc_a)]
            last_considered_key := [97]
            truncated := true } ∧
    ∃ n, n ≤ 1 ∧
      rdb_rget_slice sample_collaborators sample_store3 whole_range
          [sample_rejects_a2, sample_twice] none rget_read_response_t.fresh =
        .ok { result := .stream
                ([] ++ stream_of sample_collaborators sample_store3.txn
                  [sample_rejects_a2, sample_twice]
                  ((range_pairs sample_store3.superblock whole_range).take n))
              last_considered_key :=
                last_key ((range_pairs sample_store3.superblock whole_range).take n)
                  whole_range.left
              truncated := decide (sample_collaborators.rget_max_chunk_size ≤ estimated_size
                (stream_of sample_collaborators sample_store3.txn
                  [sample_rejects_a2, sample_twice]
                  ((range_pairs sample_store3.superblock whole_range).take n))) } ∧
      (n = (range_pairs sample_store3.superblock whole_range).length ∨
        sample_collaborators.rget_max_chunk_size ≤ estimated_size
          (stream_of sample_collaborators sample_store3.txn [sample_rejects_a2, sample_twice]
            ((range_pairs sample_store3.superblock whole_range).take n))) ∧
      (∀ m, m < n →
        estimated_size (stream_of sample_collaborators sample_store3.txn
            [sample_rejects_a2, sample_twice]
            ((range_pairs sample_store3.superblock whole_range).take m)) <
          sample_collaborators.rget_max_chunk_size) :=
  ⟨⟨by decide, rfl, by decide, by decide, by decide, Or.inr (by decide)⟩, by rfl,
    (rdb_rget_slice_stream_chunk sample_collaborators sample_store3 whole_range
      [sample_rejects_a2, sample_twice] rget_read_response_t.fresh [] 1 (by decide) rfl
      (by decide) (by decide) (by decide) (Or.inr (by decide))).1⟩

/-- C10: with the empty transform chain and no terminal, on an index in ascending key order
whose values in the range decode, the streams of the scans resumed from just past
`last_considered_key` concatenate to the stream of the range once there have been as many
scans as keys in the range, and for a positive chunk cap one more scan ends them; that stream
is the one of a scan whose cap exceeds the estimated size of the range, and it has the keys
of the range, each once, in ascending order. -/
theorem rget_resume_reproduces_uncapped_scan (x : collaborators) (st : store_t)
    (range : key_range_t) (hasc : ascending st.superblock)
    (hok : ∀ p ∈ range_pairs st.superblock range, emitted x st.txn [] p.2 ≠ none)
    (hw : estimated_size (stream_of x st.txn [] (range_pairs st.superblock range)) <
      size_t_modulus) :
    (∀ fuel, (range_pairs st.superblock range).length ≤ fuel →
      ∃ finished, rget_resume x st fuel range =
          .ok (stream_of x st.txn [] (range_pairs st.superblock range), finished) ∧
        (0 < x.rget_max_chunk_size → (range_pairs st.superblock range).length < fuel →
          finished = true)) ∧
    (∀ cap, estimated_size (stream_of x st.txn [] (range_pairs st.superblock range)) < cap →
      rdb_rget_slice (with_chunk_cap x cap) st range [] none rget_read_response_t.fresh =
        .ok { result := .stream (stream_of x st.txn [] (range_pairs st.superblock range))
              last_considered_key := last_key (range_pairs st.superblock range) range.left
              truncated := false }) ∧
    (stream_of x st.txn [] (range_pairs st.superblock range)).map Prod.fst =
      (range_pairs st.superblock range).map Prod.fst ∧
    ((stream_of x st.txn [] (range_pairs st.superblock range)).map Prod.fst).Pairwise
      (fun a b => a < b) ∧
    (∀ key, key ∈ (stream_of x st.txn [] (range_pairs st.superblock range)).map Prod.fst ↔
      range.contains_key key = true ∧ key ∈ st.superblock.map Prod.fst) := by
  have hkeys := stream_of_keys x st.txn (range_pairs st.superblock range) hok
  refine ⟨fun fuel hfuel => rget_resume_stream x st hasc fuel range hfuel hok hw, ?_, hkeys,
    ?_, ?_⟩
  · intro cap hcap
    obtain ⟨n, hn, hslice, _, hstop, _⟩ :=
      rdb_rget_slice_stream_scan (with_chunk_cap x cap) st range [] rget_read_response_t.fresh []
        rfl hok hw
    have hnot : ¬ cap ≤ estimated_size
        (stream_of x st.txn [] ((range_pairs st.superblock range).take n)) :=
      not_le.mpr (lt_of_le_of_lt (estimated_size_take_le _ _ _ _ _) hcap)
    have hall : n = (range_pairs st.superblock range).length := by
      rcases hstop with h | h
      · exact h
      · exact absurd h hnot
    rw [hslice, hall, List.take_length]
    simp only [stream_of_with_chunk_cap, List.nil_append]
    have hfalse : decide ((with_chunk_cap x cap).rget_max_chunk_size ≤ estimated_size
        (stream_of x st.txn [] (range_pairs st.superblock range))) = false := by
      apply decide_eq_false
      exact not_le.mpr hcap
    rw [hfalse]
  · rw [hkeys]
    exact (List.pairwise_map).mpr (range_pairs_ascending st.superblock range hasc)
  · intro key
    rw [hkeys]
    simp only [range_pairs, List.mem_map, List.mem_filter]
    constructor
    · rintro ⟨p, ⟨hp, hc⟩, rfl⟩
      exact ⟨hc, p, hp, rfl⟩
    · rintro ⟨hc, p, hp, rfl⟩
      exact ⟨p, ⟨hp, hc⟩, rfl⟩

theorem rget_resume_reproduces_uncapped_scan_witness :
    (ascending sample_store3.superblock ∧
      (∀ p ∈ range_pairs sample_store3.superblock whole_range,
        emitted sample_collaborators sample_store3.txn [] p.2 ≠ none) ∧
      estimated_size (stream_of sample_collaborators sample_store3.txn []
        (range_pairs sample_store3.superblock whole_range)) < size_t_modulus) ∧
    rget_resume sample_collaborators sample_store3 4 whole_range =
      .ok ([([97], sample_doc_a), ([98], sample_doc_a2), ([99], .String "c")], true) ∧
    ∃ finished, rget_resume sample_collaborators sample_store3 4 whole_range =
        .ok (stream_of sample_collaborators sample_store3.txn []
          (range_pairs sample_store3.superblock whole_range), finished) ∧
      (0 < sample_collaborators.rget_max_chunk_size →
        (range_pairs sample_store3.superblock whole_range).length < 4 → finished = true) :=
  ⟨⟨by decide, by decide, by decide⟩, by rfl,
    (rget_resume_reproduces_uncapped_scan sample_collaborators sample_store3 whole_range
      (by decide) (by decide) (by decide)).1 4 (by decide)⟩

/-! ## Truncated scans of a closed range -/

theorem stream_of_length (x : collaborators) (txn : transaction_t)
    (pairs : List (store_key_t × rdb_value_t))
    (hok : ∀ p ∈ pairs, emitted x txn [] p.2 ≠ none) :
    (stream_of x txn [] pairs).length = pairs.length := by
  have h := congrArg List.length (stream_of_keys x txn pairs hok)
  simpa using h

/-- The last considered key of a nonempty first part of the pairs of a range is the key of one
of these pairs. -/
theorem last_key_take_mem (sb : superblock_t) (range : key_range_t) (n : Nat) (hn : 0 < n)
    (hne : range_pairs sb range ≠ []) :
    ∃ p ∈ (range_pairs sb range).take n,
      last_key ((range_pairs sb range).take n) range.left = p.1 := by
  have hne1 : (range_pairs sb range).take n ≠ [] := by
    intro h
    have h1 := congrArg List.length h
    have h2 : 0 < (range_pairs sb range).length := List.length_pos.mpr hne
    simp only [List.length_take, List.length_nil] at h1
    omega
  rcases last_key_mem ((range_pairs sb range).take n) range.left with h | h
  · obtain ⟨q, hq⟩ := List.exists_mem_of_ne_nil _ hne1
    refine ⟨q, hq, ?_⟩
    have h1 : q.1 ≤ last_key ((range_pairs sb range).take n) range.left :=
      (le_last_key _ _).2 q hq
    have h2 : range.left ≤ q.1 := range_pairs_left_le sb range q (List.mem_of_mem_take hq)
    rw [h] at h1 ⊢
    exact le_antisymm h2 h1
  · exact h

/-- C11, as the claim states it, fails: with three keys in `[a, z]` and a cap of 501, below the
estimated size 750 of the range, the cap is reached only at the last key `z`, so the scan is
truncated with `last_considered_key` equal to `z`, not below it. -/
theorem rdb_rget_slice_truncated_at_last_key :
    (with_chunk_cap sample_collaborators 501).rget_max_chunk_size <
        estimated_size (stream_of (with_chunk_cap sample_collaborators 501) sample_store3.txn []
          (range_pairs sample_store3.superblock (closed_range [97] [99]))) ∧
    rdb_rget_slice (with_chunk_cap sample_collaborators 501) sample_store3
        (closed_range [97] [99]) [] none rget_read_response_t.fresh =
      .ok { result := .stream
              [([97], sample_doc_a), ([98], sample_doc_a2), ([99], .String "c")]
            last_considered_key := [99]
            truncated := true } ∧
    ¬ ∃ response,
      rdb_rget_slice (with_chunk_cap sample_collaborators 501) sample_store3
          (closed_range [97] [99]) [] none rget_read_response_t.fresh = .ok response ∧
        response.truncated = true ∧ response.last_considered_key < [99] := by
  have heval : rdb_rget_slice (with_chunk_cap sample_collaborators 501) sample_store3
      (closed_range [97] [99]) [] none rget_read_response_t.fresh =
      .ok { result := .stream
              [([97], sample_doc_a), ([98], sample_doc_a2), ([99], .String "c")]
            last_considered_key := [99]
            truncated := true } := by rfl
  refine ⟨by decide, heval, ?_⟩
  rintro ⟨response, h1, _, h3⟩
  rw [heval] at h1
  injection h1 with h1
  rw [← h1] at h3
  exact absurd h3 (lt_irrefl _)

/-- C11, amended: a stream scan of the keys `[a, z]` with the empty transform chain, whose cap
is below the estimated size of the range, returns `truncated = true` and a
`last_considered_key` that is the key of a pair of the range, hence at most `z`; it is below
`z` whenever the cap is at most the estimated size `250 * m` of some `m > 0` leading pairs of
the range whose keys are all below `z`. -/
theorem rdb_rget_slice_truncated_below_total (x : collaborators) (st : store_t) (a z : store_key_t)
    (hok : ∀ p ∈ range_pairs st.superblock (closed_range a z), emitted x st.txn [] p.2 ≠ none)
    (hw : estimated_size (stream_of x st.txn [] (range_pairs st.superblock (closed_range a z))) <
      size_t_modulus)
    (hcap : x.rget_max_chunk_size <
      estimated_size (stream_of x st.txn [] (range_pairs st.superblock (closed_range a z)))) :
    ∃ response,
      rdb_rget_slice x st (closed_range a z) [] none rget_read_response_t.fresh = .ok response ∧
      response.truncated = true ∧
      (∃ p ∈ range_pairs st.superblock (closed_range a z), response.last_considered_key = p.1) ∧
      response.last_considered_key ≤ z ∧
      (∀ m, 0 < m → x.rget_max_chunk_size ≤ 250 * m →
        (∀ p ∈ (range_pairs st.superblock (closed_range a z)).take m, p.1 < z) →
        response.last_considered_key < z) := by
  obtain ⟨n, hn, hslice, hpos, hstop, hmin⟩ :=
    rdb_rget_slice_stream_scan x st (closed_range a z) [] rget_read_response_t.fresh [] rfl hok hw
  have hlen : ∀ m, estimated_size
      (stream_of x st.txn [] ((range_pairs st.superblock (closed_range a z)).take m)) =
      250 * ((range_pairs st.superblock (closed_range a z)).take m).length := by
    intro m
    unfold estimated_size
    rw [stream_of_length x st.txn _ (fun p hp => hok p (List.mem_of_mem_take hp))]
  have hfull : estimated_size
      (stream_of x st.txn [] (range_pairs st.superblock (closed_range a z))) =
      250 * (range_pairs st.superblock (closed_range a z)).length := by
    unfold estimated_size
    rw [stream_of_length x st.txn _ hok]
  have hne : range_pairs st.superblock (closed_range a z) ≠ [] := by
    intro h
    rw [hfull, h] at hcap
    simp at hcap
  have hnpos : 0 < n := hpos hne
  have htrunc : x.rget_max_chunk_size ≤ estimated_size
      (stream_of x st.txn [] ((range_pairs st.superblock (closed_range a z)).take n)) := by
    rcases hstop with h | h
    · rw [h, List.take_length]
      exact le_of_lt hcap
    · exact h
  obtain ⟨p, hp, hlk⟩ := last_key_take_mem st.superblock (closed_range a z) n hnpos hne
  have hpin := List.mem_of_mem_take hp
  have hple : p.1 ≤ z := by
    have := (List.mem_filter.mp hpin).2
    simp only [key_range_t.contains_key, closed_range, Bool.and_eq_true, decide_eq_true_eq,
      Bool.false_or] at this
    exact (key_lt_just_past_iff z p.1).mp this.2
  refine ⟨_, hslice, ?_, ⟨p, hpin, hlk⟩, ?_, ?_⟩
  · simpa using htrunc
  · show last_key _ _ ≤ z
    rw [hlk]
    exact hple
  · intro m hm hcapm hbelow
    show last_key _ _ < z
    rw [hlk]
    apply hbelow p
    by_cases hmn : m < n
    · exfalso
      have h1 := hmin m hm hmn
      rw [hlen, List.length_take] at h1
      have h2 : m ≤ (range_pairs st.superblock (closed_range a z)).length := by omega
      rw [Nat.min_eq_left h2] at h1
      omega
    · have hsub : (range_pairs st.superblock (closed_range a z)).take n =
          ((range_pairs st.superblock (closed_range a z)).take m).take n := by
        rw [List.take_take, Nat.min_eq_left (by omega)]
      rw [hsub] at hp
      exact List.mem_of_mem_take hp

theorem rdb_rget_slice_truncated_below_total_witness :
    ((∀ p ∈ range_pairs sample_store3.superblock (closed_range [97] [99]),
        emitted sample_collaborators sample_store3.txn [] p.2 ≠ none) ∧
      estimated_size (stream_of sample_collaborators sample_store3.txn []
        (range_pairs sample_store3.superblock (closed_range [97] [99]))) < size_t_modulus ∧
      sample_collaborators.rget_max_chunk_size <
        estimated_size (stream_of sample_collaborators sample_store3.txn []
          (range_pairs sample_store3.superblock (closed_range [97] [99])))) ∧
    rdb_rget_slice sample_collaborators sample_store3 (closed_range [97] [99]) [] none
        rget_read_response_t.fresh =
      .ok { result := .stream [([97], sample_doc_a), ([98], sample_doc_a2)]
            last_considered_key := [98]
            truncated := true } ∧
    ∃ response,
      rdb_rget_slice sample_collaborators sample_store3 (closed_range [97] [99]) [] none
          rget_read_response_t.fresh = .ok response ∧
      response.truncated = true ∧
      (∃ p ∈ range_pairs sample_store3.superblock (closed_range [97] [99]),
        response.last_considered_key = p.1) ∧
      response.last_considered_key ≤ [99] ∧
      (∀ m, 0 < m → sample_collaborators.rget_max_chunk_size ≤ 250 * m →
        (∀ p ∈ (range_pairs sample_store3.superblock (closed_range [97] [99])).take m,
          p.1 < [99]) →
        response.last_considered_key < [99]) :=
  ⟨⟨by decide, by decide, by decide⟩, by rfl,
    rdb_rget_slice_truncated_below_total sample_collaborators sample_store3 [97] [99]
      (by decide) (by decide) (by decide)⟩


/-! ## Domain errors in a scan -/

theorem handle_pair_bad_init (x : collaborators) (txn : transaction_t) (transform : transform_t)
    (terminal : Option terminal_t) (cb : rdb_rget_depth_first_traversal_callback_t)
    (key : store_key_t) (value : rdb_value_t) (h : cb.bad_init = true) :
    handle_pair x txn transform terminal cb key value = .ok (false, cb) := by
  simp [handle_pair, h]

theorem traverse_pairs_bad_init (x : collaborators) (txn : transaction_t)
    (transform : transform_t) (terminal : Option terminal_t)
    (pairs : List (store_key_t × rdb_value_t))
    (cb : rdb_rget_depth_first_traversal_callback_t) (h : cb.bad_init = true) :
    traverse_pairs x txn transform terminal pairs cb = .ok cb := by
  cases pairs with
  | nil => rfl
  | cons p rest =>
    obtain ⟨key, value⟩ := p
    simp [traverse_pairs, handle_pair_bad_init x txn transform terminal cb key value h]

/-- The callback that `handle_pair` leaves when a step raises a domain error: the result is
the error, and the key has been considered. -/
theorem handle_pair_step_raises (x : collaborators) (txn : transaction_t)
    (transform : transform_t) (terminal : Option terminal_t)
    (cb : rdb_rget_depth_first_traversal_callback_t) (key : store_key_t) (value : rdb_value_t)
    (e : runtime_exc_t) (hbad : cb.bad_init = false)
    (hraise : step_raises x txn transform terminal cb.response.result value e) :
    handle_pair x txn transform terminal cb key value =
      .ok (false,
        { cb with
          response :=
            { result := .exc e
              last_considered_key :=
                if cb.response.last_considered_key < key then key
                else cb.response.last_considered_key
              truncated := cb.response.truncated } }) := by
  obtain ⟨json, hg, hcase⟩ := hraise
  rcases hcase with ha | ⟨data, t, ha, ht, hterm⟩
  · by_cases hlt : cb.response.last_considered_key < key
    · simp [handle_pair, hbad, hg, ha, hlt]
    · simp [handle_pair, hbad, hg, ha, hlt]
  · subst ht
    by_cases hlt : cb.response.last_considered_key < key
    · simp [handle_pair, hbad, hg, ha, hlt, hterm]
    · simp [handle_pair, hbad, hg, ha, hlt, hterm]

theorem traverse_all_append (x : collaborators) (txn : transaction_t) (transform : transform_t)
    (terminal : Option terminal_t) (pre rest : List (store_key_t × rdb_value_t))
    (cb0 cb1 : rdb_rget_depth_first_traversal_callback_t)
    (h : traverse_all x txn transform terminal pre cb0 = some cb1) :
    traverse_pairs x txn transform terminal (pre ++ rest) cb0 =
      traverse_pairs x txn transform terminal rest cb1 := by
  induction pre generalizing cb0 with
  | nil =>
    simp only [traverse_all, Option.some.injEq] at h
    rw [h]
    rfl
  | cons p pre ih =>
    obtain ⟨key, value⟩ := p
    simp only [traverse_all] at h
    cases hh : handle_pair x txn transform terminal cb0 key value with
    | error f => simp [hh] at h
    | ok r =>
      obtain ⟨b, cb⟩ := r
      cases b with
      | false => simp [hh] at h
      | true =>
        simp only [hh] at h
        simp only [List.cons_append, traverse_pairs, hh]
        exact ih cb h

theorem handle_pair_keeps_bad_init (x : collaborators) (txn : transaction_t)
    (transform : transform_t) (terminal : Option terminal_t)
    (cb cb1 : rdb_rget_depth_first_traversal_callback_t) (key : store_key_t)
    (value : rdb_value_t) (b : Bool)
    (h : handle_pair x txn transform terminal cb key value = .ok (b, cb1)) :
    cb1.bad_init = cb.bad_init := by
  unfold handle_pair at h
  split at h
  · simp only [Except.ok.injEq, Prod.mk.injEq] at h
    rw [← h.2]
  · simp only [] at h
    split at h
    · exact absurd h (by simp)
    · split at h
      · simp only [Except.ok.injEq, Prod.mk.injEq] at h
        rw [← h.2]
      · split at h
        · split at h
          · simp only [Except.ok.injEq, Prod.mk.injEq] at h
            rw [← h.2]
          · exact absurd h (by simp)
        · split at h
          · simp only [Except.ok.injEq, Prod.mk.injEq] at h
            rw [← h.2]
          · simp only [Except.ok.injEq, Prod.mk.injEq] at h
            rw [← h.2]

theorem traverse_all_keeps_bad_init (x : collaborators) (txn : transaction_t)
    (transform : transform_t) (terminal : Option terminal_t)
    (pre : List (store_key_t × rdb_value_t))
    (cb0 cb1 : rdb_rget_depth_first_traversal_callback_t)
    (h : traverse_all x txn transform terminal pre cb0 = some cb1) :
    cb1.bad_init = cb0.bad_init := by
  induction pre generalizing cb0 with
  | nil =>
    simp only [traverse_all, Option.some.injEq] at h
    rw [h]
  | cons p pre ih =>
    obtain ⟨key, value⟩ := p
    simp only [traverse_all] at h
    cases hh : handle_pair x txn transform terminal cb0 key value with
    | error f => simp [hh] at h
    | ok r =>
      obtain ⟨b, cb⟩ := r
      cases b with
      | false => simp [hh] at h
      | true =>
        simp only [hh] at h
        rw [ih cb h]
        exact handle_pair_keeps_bad_init x txn transform terminal cb0 cb key value true hh

/-- C12: a domain error replaces the result of a scan.  When the initializer of the terminal
throws `e`, the callback is created with `bad_init` set and the result `e`, every call of
`handle_pair` on it returns `false` and leaves it as it is, and `rdb_rget_slice` returns the
result `e`.  When the initializer passes, `handle_pair` has returned `true` on the pairs `pre`,
and a transform step or the terminal throws `e` on the next pair, then `handle_pair` returns
`false` with the result `e` in place of what was streamed or accumulated, the traversal
returns that callback whatever pairs follow, and `rdb_rget_slice` returns the result `e`. -/
theorem rget_domain_error_replaces_result (x : collaborators) (st : store_t)
    (range : key_range_t) (transform : transform_t) :
    (∀ (t : terminal_t) (response : rget_read_response_t) (e : runtime_exc_t),
      t.init response.result = .error e →
      (rdb_rget_depth_first_traversal_callback_t.create (some t) range response).bad_init =
          true ∧
        (rdb_rget_depth_first_traversal_callback_t.create (some t) range
          response).response.result = .exc e ∧
        (∀ key value,
          handle_pair x st.txn transform (some t)
              (rdb_rget_depth_first_traversal_callback_t.create (some t) range response)
              key value =
            .ok (false,
              rdb_rget_depth_first_traversal_callback_t.create (some t) range response)) ∧
        rdb_rget_slice x st range transform (some t) response =
          .ok { result := .exc e
                last_considered_key := range.left
                truncated := decide (x.rget_max_chunk_size ≤ 0) }) ∧
    (∀ (terminal : Option terminal_t) (response : rget_read_response_t)
        (pre : List (store_key_t × rdb_value_t)) (key : store_key_t) (value : rdb_value_t)
        (cb1 : rdb_rget_depth_first_traversal_callback_t) (e : runtime_exc_t),
      (rdb_rget_depth_first_traversal_callback_t.create terminal range response).bad_init =
          false →
      traverse_all x st.txn transform terminal pre
          (rdb_rget_depth_first_traversal_callback_t.create terminal range response) =
        some cb1 →
      step_raises x st.txn transform terminal cb1.response.result value e →
      handle_pair x st.txn transform terminal cb1 key value =
          .ok (false,
            { cb1 with
              response :=
                { result := .exc e
                  last_considered_key :=
                    if cb1.response.last_considered_key < key then key
                    else cb1.response.last_considered_key
                  truncated := cb1.response.truncated } }) ∧
        (∀ post,
          traverse_pairs x st.txn transform terminal (pre ++ (key, value) :: post)
              (rdb_rget_depth_first_traversal_callback_t.create terminal range response) =
            .ok { cb1 with
                  response :=
                    { result := .exc e
                      last_considered_key :=
                        if cb1.response.last_considered_key < key then key
                        else cb1.response.last_considered_key
                      truncated := cb1.response.truncated } }) ∧
        (∀ post, range_pairs st.superblock range = pre ++ (key, value) :: post →
          rdb_rget_slice x st range transform terminal response =
            .ok { result := .exc e
                  last_considered_key :=
                    if cb1.response.last_considered_key < key then key
                    else cb1.response.last_considered_key
                  truncated := decide (x.rget_max_chunk_size ≤ cb1.cumulative_size) })) := by
  constructor
  · intro t response e hinit
    have hcreate : rdb_rget_depth_first_traversal_callback_t.create (some t) range response =
        { bad_init := true
          response := { result := .exc e, last_considered_key := range.left,
                        truncated := response.truncated }
          cumulative_size := 0 } := by
      simp [rdb_rget_depth_first_traversal_callback_t.create, hinit]
    refine ⟨by rw [hcreate], by rw [hcreate], ?_, ?_⟩
    · intro key value
      exact handle_pair_bad_init x st.txn transform (some t) _ key value (by rw [hcreate])
    · simp only [rdb_rget_slice, btree_depth_first_traversal]
      rw [traverse_pairs_bad_init x st.txn transform (some t) _ _ (by rw [hcreate]), hcreate]
      by_cases hc : x.rget_max_chunk_size ≤ 0
      · simp [hc]
      · simp [hc]
  · intro terminal response pre key value cb1 e hinit hpre hraise
    have hbad : cb1.bad_init = false := by
      rw [traverse_all_keeps_bad_init x st.txn transform terminal pre _ cb1 hpre]
      exact hinit
    have hstep := handle_pair_step_raises x st.txn transform terminal cb1 key value e hbad hraise
    have htrav : ∀ post,
        traverse_pairs x st.txn transform terminal (pre ++ (key, value) :: post)
            (rdb_rget_depth_first_traversal_callback_t.create terminal range response) =
          .ok { cb1 with
                response :=
                  { result := .exc e
                    last_considered_key :=
                      if cb1.response.last_considered_key < key then key
                      else cb1.response.last_considered_key
                    truncated := cb1.response.truncated } } := by
      intro post
      rw [traverse_all_append x st.txn transform terminal pre _ _ cb1 hpre]
      simp only [traverse_pairs, hstep]
    refine ⟨hstep, htrav, ?_⟩
    intro post hpairs
    simp only [rdb_rget_slice, btree_depth_first_traversal, hpairs, htrav post]
    by_cases hc : x.rget_max_chunk_size ≤ cb1.cumulative_size
    · simp [hc]
    · simp [hc]

theorem rget_domain_error_replaces_result_witness :
    (sample_bad_init.init rget_read_response_t.fresh.result =
        .error { message := "bad terminal", backtrace := ["init"] } ∧
      rdb_rget_slice sample_collaborators sample_store3 whole_range [sample_rejects_a2]
          (some sample_bad_init) rget_read_response_t.fresh =
        .ok { result := .exc { message := "bad terminal", backtrace := ["init"] }
              last_considered_key := []
              truncated := false }) ∧
    ((rdb_rget_depth_first_traversal_callback_t.create none whole_range
        rget_read_response_t.fresh).bad_init = false ∧
      traverse_all sample_collaborators sample_store3.txn [sample_rejects_a2] none
          [([97], .Overflow 15 [0, 1, 2, 3, 4, 5, 6, 7])]
          (rdb_rget_depth_first_traversal_callback_t.create none whole_range
            rget_read_response_t.fresh) =
        some (stream_callback [([97], sample_doc_a)] [97] false 250) ∧
      step_raises sample_collaborators sample_store3.txn [sample_rejects_a2] none
        (stream_callback [([97], sample_doc_a)] [97] false 250).response.result
        (.Overflow 16 [8, 9, 10, 11, 12, 13, 14, 15])
        { message := "rejected", backtrace := ["filter"] } ∧
      range_pairs sample_store3.superblock whole_range =
        [([97], .Overflow 15 [0, 1, 2, 3, 4, 5, 6, 7])] ++
          ([98], .Overflow 16 [8, 9, 10, 11, 12, 13, 14, 15]) :: [([99], .Inline [4, 1, 99])]) ∧
    rdb_rget_slice sample_collaborators sample_store3 whole_range [sample_rejects_a2] none
        rget_read_response_t.fresh =
      .ok { result := .exc { message := "rejected", backtrace := ["filter"] }
            last_considered_key := [98]
            truncated := false } :=
  ⟨⟨by rfl,
      ((rget_domain_error_replaces_result sample_collaborators sample_store3 whole_range
        [sample_rejects_a2]).1 sample_bad_init rget_read_response_t.fresh
        { message := "bad terminal", backtrace := ["init"] } (by rfl)).2.2.2⟩,
    ⟨by rfl, by rfl, ⟨sample_doc_a2, by rfl, Or.inl (by rfl)⟩, by decide⟩,
    ((rget_domain_error_replaces_result sample_collaborators sample_store3 whole_range
      [sample_rejects_a2]).2 none rget_read_response_t.fresh
      [([97], .Overflow 15 [0, 1, 2, 3, 4, 5, 6, 7])] [98]
      (.Overflow 16 [8, 9, 10, 11, 12, 13, 14, 15])
      (stream_callback [([97], sample_doc_a)] [97] false 250)
      { message := "rejected", backtrace := ["filter"] } (by rfl) (by rfl)
      ⟨sample_doc_a2, by rfl, Or.inl (by rfl)⟩).2.2 [([99], .Inline [4, 1, 99])] (by decide)⟩


/-! ## Distribution sampling -/

theorem key_counts_find_assign_same (m : List (store_key_t × Int)) (key : store_key_t)
    (count : Int) : key_counts_find (key_counts_assign m key count) key = some count := by
  induction m with
  | nil => simp [key_counts_assign, key_counts_find]
  | cons p rest ih =>
    obtain ⟨k, c⟩ := p
    unfold key_counts_assign
    by_cases h1 : key < k
    · simp [h1, key_counts_find]
    · by_cases h2 : key = k
      · simp [h2, key_counts_find]
      · have h3 : ¬ k = key := fun h => h2 h.symm
        simp [h1, h2, h3, key_counts_find, ih]

theorem key_counts_find_assign_other (m : List (store_key_t × Int)) (key other : store_key_t)
    (count : Int) (h : other ≠ key) :
    key_counts_find (key_counts_assign m key count) other = key_counts_find m other := by
  have h' : ¬ key = other := fun e => h e.symm
  induction m with
  | nil => simp [key_counts_assign, key_counts_find, h']
  | cons p rest ih =>
    obtain ⟨k, c⟩ := p
    unfold key_counts_assign
    by_cases h1 : key < k
    · simp [h1, key_counts_find, h']
    · by_cases h2 : key = k
      · subst h2
        simp [key_counts_find, h']
      · simp only [h1, h2, if_false, key_counts_find, ih]

theorem key_counts_find_assign_splits (count : Int) (splits : List store_key_t)
    (m : List (store_key_t × Int)) (key : store_key_t) :
    key_counts_find (assign_splits count splits m) key =
      if key ∈ splits then some count else key_counts_find m key := by
  induction splits generalizing m with
  | nil => simp [assign_splits]
  | cons k rest ih =>
    simp only [assign_splits, ih, List.mem_cons]
    by_cases hr : key ∈ rest
    · simp [hr]
    · by_cases hk : key = k
      · subst hk
        simp [hr, key_counts_find_assign_same]
      · simp [hr, hk, key_counts_find_assign_other _ _ _ _ hk]

theorem to_uint64_of_nat (n : Nat) (h : n < 2 ^ 64) : to_uint64 (n : Int) = n := by
  unfold to_uint64
  omega

theorem to_int64_of_lt (n : Nat) (h : n < 2 ^ 63) : to_int64 n = (n : Int) := by
  unfold to_int64
  have h1 : n % 2 ^ 64 = n := Nat.mod_eq_of_lt (by omega)
  rw [h1, if_pos h]

/-- The estimate of `rdb_distribution_get` for a count that fits an `int64_t`: the count when
there is no split, and otherwise the quotient by the number of splits, or 1 if that is 0. -/
theorem keys_per_bucket_eq (n : Nat) (splits : List store_key_t) (h : n < 2 ^ 63) :
    keys_per_bucket (n : Int) splits =
      if splits.length = 0 then (n : Int) else ((max (n / splits.length) 1 : Nat) : Int) := by
  unfold keys_per_bucket
  by_cases h0 : splits.length = 0
  · simp [h0]
  · simp only [h0, if_false]
    rw [to_uint64_of_nat n (by omega)]
    have hq : n / splits.length < 2 ^ 63 := lt_of_le_of_lt (Nat.div_le_self _ _) h
    rw [to_int64_of_lt _ hq]
    push_cast
    rfl

theorem key_counts_find_ne_none (m : List (store_key_t × Int)) (key : store_key_t) :
    key_counts_find m key ≠ none ↔ key ∈ m.map Prod.fst := by
  induction m with
  | nil => simp [key_counts_find]
  | cons p rest ih =>
    obtain ⟨k, c⟩ := p
    by_cases h : k = key
    · simp [key_counts_find, h]
    · have h1 : ¬ key = k := fun e => h e.symm
      simp [key_counts_find, h, h1, ih]

/-- C13, as the claim states it, fails: for a count of 10 and one split the map has two
buckets, and both hold 10, the quotient by the number of splits, not `max 1 (10 / 2) = 5`. -/
theorem rdb_distribution_get_divides_by_splits :
    rdb_distribution_get 10 [[98]] [97] { key_counts := [] } =
      { key_counts := [([97], 10), ([98], 10)] } ∧
    ¬ ∀ p ∈ (rdb_distribution_get 10 [[98]] [97] { key_counts := [] }).key_counts,
      p.2 = max 1
        (10 / ((rdb_distribution_get 10 [[98]] [97] { key_counts := [] }).key_counts.length :
          Int)) := by
  refine ⟨by decide, ?_⟩
  decide

/-- C13, amended: for a count that fits an `int64_t`, the map of `rdb_distribution_get` has
the left key and the split keys, beside the keys it had, each of them mapped to the same
estimate: the count itself when there is no split (so that an empty map gets the single
bucket of the left key with the full count, 0 for no keys), and otherwise the greater of 1
and the quotient of the count by the number of split keys. -/
theorem rdb_distribution_get_estimates (n : Nat) (key_splits : List store_key_t)
    (left_key : store_key_t) (response : distribution_read_response_t) (h : n < 2 ^ 63) :
    (∀ key,
      key_counts_find (rdb_distribution_get (n : Int) key_splits left_key response).key_counts
          key =
        if key = left_key ∨ key ∈ key_splits then
          some (if key_splits.length = 0 then (n : Int)
            else ((max (n / key_splits.length) 1 : Nat) : Int))
        else key_counts_find response.key_counts key) ∧
    (∀ key,
      key ∈ (rdb_distribution_get (n : Int) key_splits left_key response).key_counts.map
          Prod.fst ↔
        key = left_key ∨ key ∈ key_splits ∨ key ∈ response.key_counts.map Prod.fst) ∧
    rdb_distribution_get (n : Int) [] left_key { key_counts := [] } =
      { key_counts := [(left_key, (n : Int))] } ∧
    rdb_distribution_get 0 [] left_key { key_counts := [] } =
      { key_counts := [(left_key, 0)] } := by
  have hfind : ∀ key,
      key_counts_find (rdb_distribution_get (n : Int) key_splits left_key response).key_counts
          key =
        if key = left_key ∨ key ∈ key_splits then
          some (if key_splits.length = 0 then (n : Int)
            else ((max (n / key_splits.length) 1 : Nat) : Int))
        else key_counts_find response.key_counts key := by
    intro key
    simp only [rdb_distribution_get, key_counts_find_assign_splits, keys_per_bucket_eq n _ h]
    by_cases hs : key ∈ key_splits
    · simp [hs]
    · by_cases hl : key = left_key
      · subst hl
        simp [hs, key_counts_find_assign_same]
      · simp [hs, hl, key_counts_find_assign_other _ _ _ _ hl]
  refine ⟨hfind, ?_, ?_, ?_⟩
  · intro key
    rw [← key_counts_find_ne_none, hfind key, ← key_counts_find_ne_none]
    by_cases hk : key = left_key ∨ key ∈ key_splits
    · rw [if_pos hk]
      constructor
      · intro _
        rcases hk with h1 | h1
        · exact Or.inl h1
        · exact Or.inr (Or.inl h1)
      · intro _
        exact Option.some_ne_none _
    · rw [if_neg hk]
      constructor
      · intro h1
        exact Or.inr (Or.inr h1)
      · intro h1
        rcases h1 with h1 | h1 | h1
        · exact absurd (Or.inl h1) hk
        · exact absurd (Or.inr h1) hk
        · exact h1
  · simp [rdb_distribution_get, keys_per_bucket, assign_splits, key_counts_assign]
  · simp [rdb_distribution_get, keys_per_bucket, assign_splits, key_counts_assign]

theorem rdb_distribution_get_estimates_witness :
    (10 : Nat) < 2 ^ 63 ∧
    rdb_distribution_get ((10 : Nat) : Int) [[98], [99], [100]] [97] { key_counts := [] } =
      { key_counts := [([97], 3), ([98], 3), ([99], 3), ([100], 3)] } ∧
    ∀ key,
      key_counts_find
          (rdb_distribution_get ((10 : Nat) : Int) [[98], [99], [100]] [97]
            { key_counts := [] }).key_counts key =
        if key = [97] ∨ key ∈ [[98], [99], [100]] then
          some (if ([[98], [99], [100]] : List store_key_t).length = 0 then ((10 : Nat) : Int)
            else ((max (10 / ([[98], [99], [100]] : List store_key_t).length) 1 : Nat) : Int))
        else key_counts_find ({ key_counts := [] } : distribution_read_response_t).key_counts
          key :=
  ⟨by decide, by decide,
    (rdb_distribution_get_estimates 10 [[98], [99], [100]] [97] { key_counts := [] }
      (by decide)).1⟩


end RdbBtree
